import Mathlib

/-!
Verification of the document-processing and caching pipeline of a RAG
experimentation harness.  The Lean definitions below are a shallow embedding
of the Python source: the content hasher (`create_hash`), the text cleaning
strategies (`clean_text_minimal`, `clean_text_moderate`,
`clean_dot_leader_lines`), and the orchestration loop `process_documents`
with its cache.  Theorems settle the specified properties.
-/

namespace RagProof

/-!
Section: Python string primitives.

Python regular expressions are applied to `str` values, so the class
regex-s matches the Unicode whitespace set; the same set is stripped by
the method `str.strip()`.
-/

/-- Characters in Python's Unicode whitespace set: matched by the regex
class for whitespace and removed by `str.strip()`.  Stated over the
codepoint so that arithmetic automation applies. -/
def pyWS (c : Char) : Bool :=
  let n := c.toNat
  n = 0x20 || n = 0x09 || n = 0x0A || n = 0x0D || n = 0x0B || n = 0x0C ||
  n = 0x1C || n = 0x1D || n = 0x1E || n = 0x1F ||
  n = 0x85 || n = 0xA0 || n = 0x1680 ||
  (0x2000 ≤ n && n ≤ 0x200A) ||
  n = 0x2028 || n = 0x2029 || n = 0x202F || n = 0x205F || n = 0x3000

/-- Prepends the single space standing for a whitespace run.  When the
already-collapsed remainder begins with the space of a directly following
run, the two runs are a single run, so no extra space is added. -/
def wsCons (r : List Char) : List Char :=
  if r.head? = some ' ' then r else ' ' :: r

/-- Model of the substitution replacing every maximal run of whitespace by a
single ASCII space (Python: a regex substitution of one-or-more whitespace
characters with a single space), processing right to left. -/
def collapseWS : List Char → List Char
  | [] => []
  | c :: rest => if pyWS c then wsCons (collapseWS rest) else c :: collapseWS rest

/-- Removes trailing whitespace characters (the right half of `str.strip()`). -/
def stripEnd : List Char → List Char
  | [] => []
  | c :: rest =>
    let r := stripEnd rest
    if r.isEmpty && pyWS c then [] else c :: r

theorem stripEnd_cons (c : Char) (rest : List Char) :
    stripEnd (c :: rest) =
      if (stripEnd rest).isEmpty && pyWS c then [] else c :: stripEnd rest := rfl

/-- Model of Python `str.strip()`: removes leading and trailing whitespace. -/
def pyStrip (l : List Char) : List Char := stripEnd (l.dropWhile pyWS)

/-- Lowercase ASCII letter, the range a-z used by the cleaning regexes. -/
def isLowerAZ (c : Char) : Bool := 0x61 ≤ c.toNat && c.toNat ≤ 0x7A

/-- ASCII digit, the range 0-9 used by the cleaning regexes. -/
def isDigit09 (c : Char) : Bool := 0x30 ≤ c.toNat && c.toNat ≤ 0x39

/-!
Section: text cleaning strategies.

`clean_text_minimal` (iteration 2) lowercases, deletes every character
outside an allow-list, collapses whitespace runs and strips.

`clean_text_moderate` (iterations 3 and 4) first Unicode-normalizes (NFKC)
and maps five typographic variants to ASCII, computes a lowercased copy,
then applies the character filter, whitespace collapsing and a blank-line
collapsing substitution.  The NFKC normalization and the Unicode-aware
`str.lower` are third-party library functions; they enter the embedding as
function parameters, and each theorem states explicitly which property of
them it uses.
-/

/-- Allow-list of `clean_text_minimal`: lowercase letters, digits,
whitespace, and the punctuation set period comma question exclamation
hyphen. -/
def minAllowed (c : Char) : Bool :=
  isLowerAZ c || isDigit09 c || pyWS c ||
  c = '.' || c = ',' || c = '?' || c = '!' || c = '-'

/-- Iteration 2 `DocumentProcessor.clean_text_minimal`: lowercase, delete
characters outside `minAllowed`, collapse whitespace runs to one space,
strip.  `lower` is Python's `str.lower`. -/
def cleanTextMinimal (lower : String → String) (text : String) : String :=
  String.mk (pyStrip (collapseWS ((lower text).data.filter minAllowed)))

/-- Allow-list of `clean_text_moderate`: lowercase letters, digits,
whitespace, and a wider symbol set including currency and comparison
symbols. -/
def modAllowed (c : Char) : Bool :=
  isLowerAZ c || isDigit09 c || pyWS c ||
  c = '.' || c = ',' || c = '?' || c = '!' || c = ':' || c = '%' ||
  c = '€' || c = '£' || c = '$' || c = '±' || c = '=' ||
  c = '(' || c = ')' || c = '/' || c = '-'

/-- The five single-character typographic replacements of
`clean_text_moderate`: right single quote, left and right double quotes,
en-dash, and non-breaking space. -/
def replaceTypo (c : Char) : Char :=
  if c = '’' then '\'' else
  if c = '“' then '"' else
  if c = '”' then '"' else
  if c = '–' then '-' else
  if c = ' ' then ' ' else c

/-- Index of the last newline in a character list (0 when there is none);
helper for the blank-line substitution. -/
def lastNLIdx (l : List Char) : Nat :=
  l.length - 1 - l.reverse.findIdx (fun c => c = '\n')

/-- Model of the final substitution of `clean_text_moderate`: the regex
replacing a newline, followed by at least two further newlines separated
only by whitespace, with exactly two newlines (keep at most one blank
line).  A match starts at a newline whose following maximal whitespace run
contains at least two more newlines, extends through the last newline of
that run, and is replaced by two newlines. -/
def blankLineSubAux : Nat → List Char → List Char
  | _, [] => []
  | 0, l => l
  | fuel + 1, c :: rest =>
    if c = '\n' then
      let run := rest.takeWhile pyWS
      if 2 ≤ (run.filter (fun d => d = '\n')).length then
        '\n' :: '\n' :: blankLineSubAux fuel (rest.drop (lastNLIdx run + 1))
      else
        c :: blankLineSubAux fuel rest
    else c :: blankLineSubAux fuel rest

/-- The blank-line substitution over a whole character list.  Every step of
`blankLineSubAux` consumes at least one character, so fuel equal to the
length is never exhausted. -/
def blankLineSub (l : List Char) : List Char := blankLineSubAux l.length l

/-- Iterations 3 and 4 `DocumentProcessor.clean_text_moderate`.  The source
computes a lowercased copy of the text and then immediately overwrites it:
the character filter is applied to the non-lowercased `text`, so the
lowercased string is discarded (this is visible below as the unused
binding).  `nfkc` is `unicodedata.normalize` with form NFKC and `lower` is
`str.lower`, both passed in as parameters. -/
def cleanTextModerate (nfkc lower : String → String) (text0 : String) : String :=
  let text1 := nfkc text0
  let text2 := String.mk (text1.data.map replaceTypo)
  let _cleaned := lower text2
  let cleaned2 := text2.data.filter modAllowed
  let cleaned3 := pyStrip (collapseWS cleaned2)
  String.mk (blankLineSub cleaned3)

/-!
Section: whitespace-normalization lemmas, used by the idempotence claims.
-/

/-- No two adjacent whitespace characters occur in the list. -/
def noAdjWS : List Char → Bool
  | c :: d :: rest => (!(pyWS c && pyWS d)) && noAdjWS (d :: rest)
  | _ => true

theorem noAdjWS_cons_cons {c d : Char} {l : List Char} :
    noAdjWS (c :: d :: l) = ((!(pyWS c && pyWS d)) && noAdjWS (d :: l)) := rfl

theorem noAdjWS_tail {c : Char} {l : List Char} (h : noAdjWS (c :: l) = true) :
    noAdjWS l = true := by
  cases l with
  | nil => rfl
  | cons d t =>
    rw [noAdjWS_cons_cons, Bool.and_eq_true] at h
    exact h.2

theorem mem_wsCons {c : Char} {r : List Char} (h : c ∈ wsCons r) : c = ' ' ∨ c ∈ r := by
  unfold wsCons at h
  split at h
  · exact Or.inr h
  · exact List.mem_cons.mp h

theorem mem_collapseWS :
    ∀ {l : List Char} {c : Char}, c ∈ collapseWS l → c = ' ' ∨ (c ∈ l ∧ pyWS c = false) := by
  intro l
  induction l with
  | nil => intro c h; simp [collapseWS] at h
  | cons a rest ih =>
    intro c h
    simp only [collapseWS] at h
    by_cases ha : pyWS a
    · rw [if_pos ha] at h
      rcases mem_wsCons h with h | h
      · exact Or.inl h
      · rcases ih h with h | ⟨h1, h2⟩
        · exact Or.inl h
        · exact Or.inr ⟨List.mem_cons_of_mem _ h1, h2⟩
    · rw [if_neg ha] at h
      rcases List.mem_cons.mp h with rfl | h
      · exact Or.inr ⟨List.mem_cons_self _ _, by simpa using ha⟩
      · rcases ih h with h | ⟨h1, h2⟩
        · exact Or.inl h
        · exact Or.inr ⟨List.mem_cons_of_mem _ h1, h2⟩

theorem spaceWS_collapseWS {l : List Char} {c : Char}
    (hc : c ∈ collapseWS l) (hws : pyWS c = true) : c = ' ' := by
  rcases mem_collapseWS hc with h | ⟨_, h2⟩
  · exact h
  · rw [h2] at hws
    exact absurd hws (by simp)

theorem noAdjWS_collapseWS : ∀ (l : List Char), noAdjWS (collapseWS l) = true := by
  intro l
  induction l with
  | nil => rfl
  | cons a rest ih =>
    simp only [collapseWS]
    by_cases ha : pyWS a
    · rw [if_pos ha]
      unfold wsCons
      split
      · exact ih
      · next hhead =>
          cases hr : collapseWS rest with
          | nil => rfl
          | cons d t =>
            rw [noAdjWS_cons_cons]
            have hd : pyWS d = false := by
              by_contra hdd
              have hdt : pyWS d = true := by simpa using hdd
              have hd2 : d = ' ' :=
                spaceWS_collapseWS (l := rest) (hr ▸ List.mem_cons_self d t) hdt
              apply hhead
              rw [hr, hd2]
              rfl
            have ih2 : noAdjWS (d :: t) = true := hr ▸ ih
            simp [hd, ih2]
    · rw [if_neg ha]
      cases hr : collapseWS rest with
      | nil => rfl
      | cons d t =>
        rw [noAdjWS_cons_cons]
        have ha2 : pyWS a = false := by simpa using ha
        have ih2 : noAdjWS (d :: t) = true := hr ▸ ih
        simp [ha2, ih2]

theorem collapseWS_id :
    ∀ {l : List Char}, (∀ c ∈ l, pyWS c = true → c = ' ') → noAdjWS l = true →
      collapseWS l = l := by
  intro l
  induction l with
  | nil => intro _ _; rfl
  | cons a rest ih =>
    intro hsp hadj
    simp only [collapseWS]
    have hrest : collapseWS rest = rest :=
      ih (fun c hc => hsp c (List.mem_cons_of_mem _ hc)) (noAdjWS_tail hadj)
    by_cases ha : pyWS a
    · rw [if_pos ha, hrest]
      have ha2 : a = ' ' := hsp a (List.mem_cons_self _ _) ha
      subst ha2
      unfold wsCons
      split
      · next hhead =>
          exfalso
          cases rest with
          | nil => simp at hhead
          | cons d t =>
            have hd : d = ' ' := by simpa using hhead
            subst hd
            rw [noAdjWS_cons_cons] at hadj
            have : pyWS ' ' = true := by decide
            simp [this] at hadj
      · rfl
    · rw [if_neg ha, hrest]

theorem mem_stripEnd : ∀ {l : List Char} {c : Char}, c ∈ stripEnd l → c ∈ l := by
  intro l
  induction l with
  | nil => intro c h; simp [stripEnd] at h
  | cons a rest ih =>
    intro c h
    simp only [stripEnd] at h
    split at h
    · simp at h
    · rcases List.mem_cons.mp h with rfl | h
      · exact List.mem_cons_self _ _
      · exact List.mem_cons_of_mem _ (ih h)

theorem stripEnd_shape (c : Char) (rest : List Char) :
    stripEnd (c :: rest) = [] ∨ stripEnd (c :: rest) = c :: stripEnd rest := by
  simp only [stripEnd]
  split
  · exact Or.inl rfl
  · exact Or.inr rfl

theorem stripEnd_head :
    ∀ {l : List Char} {d : Char} {t : List Char},
      stripEnd l = d :: t → l.head? = some d := by
  intro l d t h
  cases l with
  | nil => simp [stripEnd] at h
  | cons a r =>
    rcases stripEnd_shape a r with he | he
    · rw [he] at h; simp at h
    · rw [he] at h
      injection h with h1 _
      rw [h1]
      rfl

theorem noAdjWS_stripEnd : ∀ {l : List Char}, noAdjWS l = true → noAdjWS (stripEnd l) = true := by
  intro l
  induction l with
  | nil => intro _; rfl
  | cons a rest ih =>
    intro h
    rcases stripEnd_shape a rest with he | he
    · rw [he]; rfl
    · rw [he]
      cases hs : stripEnd rest with
      | nil => rfl
      | cons d t =>
        have hhead : rest.head? = some d := stripEnd_head hs
        cases rest with
        | nil => simp at hhead
        | cons r1 rt =>
          have hr1 : r1 = d := by simpa using hhead
          subst hr1
          rw [noAdjWS_cons_cons, Bool.and_eq_true] at h
          obtain ⟨h1, h2⟩ := h
          have ih2 : noAdjWS (r1 :: t) = true := hs ▸ ih h2
          rw [noAdjWS_cons_cons]
          simp [h1, ih2]

theorem stripEnd_last_not_ws :
    ∀ {l : List Char} {c : Char}, (stripEnd l).getLast? = some c → pyWS c = false := by
  intro l
  induction l with
  | nil => intro c h; simp [stripEnd] at h
  | cons a rest ih =>
    intro c h
    simp only [stripEnd] at h
    split at h
    · next hcond =>
        simp at h
    · next hcond =>
        cases hs : stripEnd rest with
        | nil =>
          rw [hs] at h
          simp at h
          subst h
          rw [hs] at hcond
          simpa using hcond
        | cons d t =>
          rw [hs] at h
          rw [List.getLast?_cons_cons] at h
          exact ih (hs ▸ h)

theorem stripEnd_id :
    ∀ {l : List Char}, (∀ c, l.getLast? = some c → pyWS c = false) → stripEnd l = l := by
  intro l
  induction l with
  | nil => intro _; rfl
  | cons a rest ih =>
    intro hlast
    cases rest with
    | nil =>
      have ha : pyWS a = false := hlast a rfl
      simp [stripEnd, ha]
    | cons r1 rt =>
      have hrest : stripEnd (r1 :: rt) = r1 :: rt := by
        apply ih
        intro c hc
        apply hlast
        rw [List.getLast?_cons_cons]
        exact hc
      rw [stripEnd_cons, hrest]
      simp

theorem head_dropWhile_not_ws :
    ∀ {l : List Char} {c : Char}, (l.dropWhile pyWS).head? = some c → pyWS c = false := by
  intro l
  induction l with
  | nil => intro c h; simp at h
  | cons a rest ih =>
    intro c h
    rw [List.dropWhile_cons] at h
    split at h
    · exact ih h
    · next ha =>
        have hca : a = c := by simpa using h
        subst hca
        simpa using ha

theorem mem_dropWhile : ∀ {l : List Char} {c : Char}, c ∈ l.dropWhile pyWS → c ∈ l := by
  intro l
  induction l with
  | nil => intro c h; simp at h
  | cons a rest ih =>
    intro c h
    rw [List.dropWhile_cons] at h
    split at h
    · exact List.mem_cons_of_mem _ (ih h)
    · exact h

theorem noAdjWS_dropWhile :
    ∀ {l : List Char}, noAdjWS l = true → noAdjWS (l.dropWhile pyWS) = true := by
  intro l
  induction l with
  | nil => intro _; rfl
  | cons a rest ih =>
    intro h
    rw [List.dropWhile_cons]
    split
    · exact ih (noAdjWS_tail h)
    · exact h

theorem dropWhile_id_of_head :
    ∀ {l : List Char}, (∀ c, l.head? = some c → pyWS c = false) → l.dropWhile pyWS = l := by
  intro l h
  cases l with
  | nil => rfl
  | cons a rest =>
    rw [List.dropWhile_cons]
    have := h a rfl
    simp [this]

theorem mem_pyStrip {l : List Char} {c : Char} (h : c ∈ pyStrip l) : c ∈ l :=
  mem_dropWhile (mem_stripEnd h)

theorem noAdjWS_pyStrip {l : List Char} (h : noAdjWS l = true) : noAdjWS (pyStrip l) = true :=
  noAdjWS_stripEnd (noAdjWS_dropWhile h)

theorem head_pyStrip_not_ws {l : List Char} {c : Char}
    (h : (pyStrip l).head? = some c) : pyWS c = false := by
  unfold pyStrip at h
  cases hp : stripEnd (l.dropWhile pyWS) with
  | nil => rw [hp] at h; simp at h
  | cons d t =>
    rw [hp] at h
    have hd : d = c := by simpa using h
    subst hd
    exact head_dropWhile_not_ws (stripEnd_head hp)

theorem last_pyStrip_not_ws {l : List Char} {c : Char}
    (h : (pyStrip l).getLast? = some c) : pyWS c = false :=
  stripEnd_last_not_ws h

theorem pyStrip_id {l : List Char}
    (hh : ∀ c, l.head? = some c → pyWS c = false)
    (hl : ∀ c, l.getLast? = some c → pyWS c = false) : pyStrip l = l := by
  unfold pyStrip
  rw [dropWhile_id_of_head hh]
  exact stripEnd_id hl

/-!
Section: generic clean-pipeline lemmas.

The shared shape of the minimal and moderate cleaners is: filter by an
allow-list `p`, collapse whitespace runs to single spaces, then strip.
`outP` characterizes the output alphabet.
-/

theorem pipe_out (p outP : Char → Bool)
    (hp : ∀ c, p c = true → pyWS c = false → outP c = true)
    (hsp : outP ' ' = true) (l : List Char) :
    ∀ c ∈ pyStrip (collapseWS (l.filter p)), outP c = true := by
  intro c hc
  rcases mem_collapseWS (mem_pyStrip hc) with rfl | ⟨h1, h2⟩
  · exact hsp
  · exact hp c (List.mem_filter.mp h1).2 h2

theorem pipe_fix (p outP : Char → Bool)
    (hp : ∀ c, p c = true → pyWS c = false → outP c = true)
    (hsp : outP ' ' = true)
    (houtp : ∀ c, outP c = true → p c = true)
    (hws : ∀ c, outP c = true → pyWS c = true → c = ' ')
    (l : List Char) :
    pyStrip (collapseWS ((pyStrip (collapseWS (l.filter p))).filter p)) =
      pyStrip (collapseWS (l.filter p)) := by
  have hout : ∀ c ∈ pyStrip (collapseWS (l.filter p)), outP c = true := pipe_out p outP hp hsp l
  have hfil : (pyStrip (collapseWS (l.filter p))).filter p = pyStrip (collapseWS (l.filter p)) :=
    List.filter_eq_self.mpr (fun c hc => houtp c (hout c hc))
  rw [hfil]
  have hadj : noAdjWS (pyStrip (collapseWS (l.filter p))) = true :=
    noAdjWS_pyStrip (noAdjWS_collapseWS _)
  have hsp2 : ∀ c ∈ pyStrip (collapseWS (l.filter p)), pyWS c = true → c = ' ' :=
    fun c hc hw => hws c (hout c hc) hw
  rw [collapseWS_id hsp2 hadj]
  exact pyStrip_id (fun c hc => head_pyStrip_not_ws hc) (fun c hc => last_pyStrip_not_ws hc)

/-!
Section: output alphabets of the two cleaners.
-/

/-- Characters that can appear in the output of `clean_text_minimal`: the
allow-list without whitespace, plus the single space. -/
def outMin (c : Char) : Bool :=
  isLowerAZ c || isDigit09 c || c = ' ' ||
  c = '.' || c = ',' || c = '?' || c = '!' || c = '-'

/-- Characters that can appear in the output of `clean_text_moderate`. -/
def outMod (c : Char) : Bool :=
  isLowerAZ c || isDigit09 c || c = ' ' ||
  c = '.' || c = ',' || c = '?' || c = '!' || c = ':' || c = '%' ||
  c = '€' || c = '£' || c = '$' || c = '±' || c = '=' ||
  c = '(' || c = ')' || c = '/' || c = '-'

theorem outMin_sub_min : ∀ c, outMin c = true → minAllowed c = true := by
  intro c h
  simp only [outMin, Bool.or_eq_true, decide_eq_true_eq, or_assoc] at h
  simp only [minAllowed, Bool.or_eq_true, decide_eq_true_eq, or_assoc]
  rcases h with h|h|h|h|h|h|h|h <;> first | (subst h; decide) | simp [h]

theorem min_to_out : ∀ c, minAllowed c = true → pyWS c = false → outMin c = true := by
  intro c h hws
  simp only [minAllowed, Bool.or_eq_true, decide_eq_true_eq, or_assoc] at h
  rcases h with h|h|h|h|h|h|h|h
  · simp [outMin, h]
  · simp [outMin, h]
  · rw [h] at hws; cases hws
  all_goals (subst h; decide)

theorem outMin_ws : ∀ c, outMin c = true → pyWS c = true → c = ' ' := by
  intro c h hws
  simp only [outMin, Bool.or_eq_true, decide_eq_true_eq, or_assoc] at h
  rcases h with h|h|h|h|h|h|h|h
  · exfalso
    simp only [isLowerAZ, Bool.and_eq_true, decide_eq_true_eq] at h
    simp only [pyWS, Bool.or_eq_true, Bool.and_eq_true, decide_eq_true_eq] at hws
    omega
  · exfalso
    simp only [isDigit09, Bool.and_eq_true, decide_eq_true_eq] at h
    simp only [pyWS, Bool.or_eq_true, Bool.and_eq_true, decide_eq_true_eq] at hws
    omega
  · exact h
  all_goals (subst h; exact absurd hws (by decide))

theorem outMod_sub_mod : ∀ c, outMod c = true → modAllowed c = true := by
  intro c h
  simp only [outMod, Bool.or_eq_true, decide_eq_true_eq, or_assoc] at h
  simp only [modAllowed, Bool.or_eq_true, decide_eq_true_eq, or_assoc]
  rcases h with h|h|h|h|h|h|h|h|h|h|h|h|h|h|h|h|h|h <;> first | (subst h; decide) | simp [h]

theorem mod_to_out : ∀ c, modAllowed c = true → pyWS c = false → outMod c = true := by
  intro c h hws
  simp only [modAllowed, Bool.or_eq_true, decide_eq_true_eq, or_assoc] at h
  rcases h with h|h|h|h|h|h|h|h|h|h|h|h|h|h|h|h|h|h
  · simp [outMod, h]
  · simp [outMod, h]
  · rw [h] at hws; cases hws
  all_goals (subst h; decide)

theorem outMod_ws : ∀ c, outMod c = true → pyWS c = true → c = ' ' := by
  intro c h hws
  simp only [outMod, Bool.or_eq_true, decide_eq_true_eq, or_assoc] at h
  rcases h with h|h|h|h|h|h|h|h|h|h|h|h|h|h|h|h|h|h
  · exfalso
    simp only [isLowerAZ, Bool.and_eq_true, decide_eq_true_eq] at h
    simp only [pyWS, Bool.or_eq_true, Bool.and_eq_true, decide_eq_true_eq] at hws
    omega
  · exfalso
    simp only [isDigit09, Bool.and_eq_true, decide_eq_true_eq] at h
    simp only [pyWS, Bool.or_eq_true, Bool.and_eq_true, decide_eq_true_eq] at hws
    omega
  · exact h
  all_goals (subst h; exact absurd hws (by decide))

theorem replaceTypo_id_out : ∀ c, outMod c = true → replaceTypo c = c := by
  intro c h
  unfold replaceTypo
  split_ifs with h1 h2 h3 h4 h5
  · subst h1; exact absurd h (by decide)
  · subst h2; exact absurd h (by decide)
  · subst h3; exact absurd h (by decide)
  · subst h4; exact absurd h (by decide)
  · subst h5; exact absurd h (by decide)
  · rfl

theorem map_id_of_mem {α : Type} {l : List α} {f : α → α} (h : ∀ c ∈ l, f c = c) :
    l.map f = l := by
  induction l with
  | nil => rfl
  | cons a t ih =>
    rw [List.map_cons, h a (List.mem_cons_self _ _),
      ih (fun c hc => h c (List.mem_cons_of_mem _ hc))]

theorem blankLineSubAux_id :
    ∀ (fuel : Nat) {l : List Char}, (∀ c ∈ l, c ≠ '\n') → blankLineSubAux fuel l = l := by
  intro fuel
  induction fuel with
  | zero => intro l _; cases l <;> rfl
  | succ n ih =>
    intro l h
    cases l with
    | nil => rfl
    | cons c rest =>
      have hc : c ≠ '\n' := h c (List.mem_cons_self _ _)
      simp only [blankLineSubAux, if_neg hc]
      rw [ih (fun d hd => h d (List.mem_cons_of_mem _ hd))]

theorem blankLineSub_id {l : List Char} (h : ∀ c ∈ l, c ≠ '\n') : blankLineSub l = l :=
  blankLineSubAux_id _ h

/-- C3 (code bug in iterations 3 and 4): `clean_text_moderate` computes the
lowercased text and then discards it, applying the character filter to the
original text, so an uppercase letter is deleted by the filter instead of
surviving in lowercase: on input "Hello" the output is "ello", not
"hello".  Lowercase input passes through unchanged.  Instantiated with the
identity for NFKC and lower, both of which agree with the real functions on
these ASCII inputs. -/
theorem C3_moderate_deletes_uppercase :
    cleanTextModerate id id "Hello" = "ello" ∧
    cleanTextModerate id id "hello a" = "hello a" := by
  constructor
  · rfl
  · rfl

/-- C4: the minimal cleaning strategy and the unicode-moderate cleaning
strategy are idempotent.  The hypotheses state the two facts about the
third-party library functions that the proof uses: `str.lower` fixes
strings over the minimal output alphabet, and NFKC normalization fixes
strings over the moderate output alphabet (all those characters are
NFKC-stable and none is a combining mark). -/
theorem C4_cleaning_idempotent
    (lower nfkc lower2 : String → String)
    (hlow : ∀ s : String, (∀ c ∈ s.data, outMin c = true) → lower s = s)
    (hnf : ∀ s : String, (∀ c ∈ s.data, outMod c = true) → nfkc s = s) :
    (∀ t, cleanTextMinimal lower (cleanTextMinimal lower t) = cleanTextMinimal lower t) ∧
    (∀ t, cleanTextModerate nfkc lower2 (cleanTextModerate nfkc lower2 t) =
        cleanTextModerate nfkc lower2 t) := by
  constructor
  · intro t
    have hM : ∀ c ∈ (cleanTextMinimal lower t).data, outMin c = true := by
      intro c hc
      exact pipe_out minAllowed outMin min_to_out (by decide) ((lower t).data) c hc
    show String.mk
        (pyStrip (collapseWS ((lower (cleanTextMinimal lower t)).data.filter minAllowed))) = _
    rw [hlow _ hM]
    show String.mk
        (pyStrip (collapseWS
          ((pyStrip (collapseWS ((lower t).data.filter minAllowed))).filter minAllowed))) = _
    rw [pipe_fix minAllowed outMin min_to_out (by decide) outMin_sub_min outMin_ws]
    rfl
  · intro t
    have hPout : ∀ c ∈ pyStrip (collapseWS (((nfkc t).data.map replaceTypo).filter modAllowed)),
        outMod c = true :=
      pipe_out modAllowed outMod mod_to_out (by decide) _
    have hnoNL : ∀ c ∈ pyStrip (collapseWS (((nfkc t).data.map replaceTypo).filter modAllowed)),
        c ≠ '\n' := by
      intro c hc hEq
      subst hEq
      exact absurd (hPout _ hc) (by decide)
    have h1 : cleanTextModerate nfkc lower2 t =
        String.mk (pyStrip (collapseWS (((nfkc t).data.map replaceTypo).filter modAllowed))) := by
      show String.mk
          (blankLineSub (pyStrip (collapseWS (((nfkc t).data.map replaceTypo).filter modAllowed))))
        = _
      rw [blankLineSub_id hnoNL]
    rw [h1]
    have hnf2 : nfkc (String.mk
        (pyStrip (collapseWS (((nfkc t).data.map replaceTypo).filter modAllowed)))) =
        String.mk (pyStrip (collapseWS (((nfkc t).data.map replaceTypo).filter modAllowed))) :=
      hnf _ (fun c hc => hPout c hc)
    show String.mk (blankLineSub (pyStrip (collapseWS
        (((nfkc (String.mk (pyStrip (collapseWS
          (((nfkc t).data.map replaceTypo).filter modAllowed))))).data.map replaceTypo).filter
            modAllowed)))) = _
    rw [hnf2]
    show String.mk (blankLineSub (pyStrip (collapseWS
        (((pyStrip (collapseWS (((nfkc t).data.map replaceTypo).filter modAllowed))).map
          replaceTypo).filter modAllowed)))) = _
    rw [map_id_of_mem (fun c hc => replaceTypo_id_out c (hPout c hc))]
    rw [pipe_fix modAllowed outMod mod_to_out (by decide) outMod_sub_mod outMod_ws]
    rw [blankLineSub_id hnoNL]

/-- Witness for C4 at concrete input, with identity instantiations for the
library functions (which satisfy both hypotheses trivially). -/
theorem C4_cleaning_idempotent_witness :
    cleanTextMinimal id (cleanTextMinimal id "  Ab,, c!  x ") = cleanTextMinimal id "  Ab,, c!  x " ∧
    cleanTextModerate id id (cleanTextModerate id id " A 12%  (x)\n\n\ny ") =
      cleanTextModerate id id " A 12%  (x)\n\n\ny " := by
  have h := C4_cleaning_idempotent id id id (fun s _ => rfl) (fun s _ => rfl)
  exact ⟨h.1 _, h.2 _⟩

/-!
Section: `create_hash` (src/common/utils.py).

Python values reaching `create_hash` are modelled by `PyVal`: strings,
ints, bools, None, enum members (carrying the member's `str()` form and its
primitive `.value` tag, which in this codebase is a string or an int),
lists, and dicts.  Dict keys are strings or ints; Python dict keys are
unique.  The MD5 hex digest enters the embedding as a function parameter:
every property proved is digest-function independent.
-/

/-- A Python dict key: a string or an int. -/
inductive PyKey : Type
  | str (s : String)
  | int (n : Int)
deriving DecidableEq

/-- A Python value as seen by `create_hash`. -/
inductive PyVal : Type
  | str (s : String)
  | int (n : Int)
  | bool (b : Bool)
  | none
  | enumV (reprName : String) (tag : PyKey)
  | list (xs : List PyVal)
  | dict (kvs : List (PyKey × PyVal))

/-- A JSON-serializable value, as `json.dumps` receives it after
`serialize` (only strings, ints, lists, dicts arise there) and as the
cache stores it (where bools and null also occur). -/
inductive JVal : Type
  | str (s : String)
  | int (n : Int)
  | bool (b : Bool)
  | null
  | list (xs : List JVal)
  | dict (kvs : List (PyKey × JVal))

/-- Python `str()` of the scalar values reachable in `create_hash`.
`serialize` and `create_hash` route lists and dicts away from `str()`, so
the two container cases below are unreachable from `createHash`. -/
def pyStr : PyVal → String
  | .str s => s
  | .int n => toString n
  | .bool b => if b then "True" else "False"
  | .none => "None"
  | .enumV r _ => r
  | .list _ => ""
  | .dict _ => ""

mutual

/-- The inner `serialize` of `create_hash`: an enum member is replaced by
its primitive `.value` (returned raw, not recursed), lists and dicts are
recursed structurally (dict keys are left untouched), and every other
value is replaced by its `str()` form. -/
def serialize : PyVal → JVal
  | .enumV _ (.str s) => .str s
  | .enumV _ (.int n) => .int n
  | .list xs => .list (serializeL xs)
  | .dict kvs => .dict (serializeD kvs)
  | v => .str (pyStr v)

def serializeL : List PyVal → List JVal
  | [] => []
  | x :: xs => serialize x :: serializeL xs

def serializeD : List (PyKey × PyVal) → List (PyKey × JVal)
  | [] => []
  | p :: kvs => (p.1, serialize p.2) :: serializeD kvs

end

/-- Hexadecimal digit character, lowercase. -/
def hexDig (n : Nat) : Char :=
  if n < 10 then Char.ofNat (0x30 + n) else Char.ofNat (0x61 + (n - 10))

/-- Four lowercase hex digits. -/
def hex4 (n : Nat) : String :=
  String.mk [hexDig (n / 4096 % 16), hexDig (n / 256 % 16), hexDig (n / 16 % 16), hexDig (n % 16)]

/-- JSON escaping of one character under the default ASCII-only encoder:
printable ASCII other than quote and backslash is literal, the named
control characters get two-character escapes, every other character
becomes a backslash-u escape (a surrogate pair beyond the basic plane). -/
def jsonEscChar (c : Char) : String :=
  if c = '"' then "\\\"" else
  if c = '\\' then "\\\\" else
  if c = '\n' then "\\n" else
  if c = '\t' then "\\t" else
  if c = '\r' then "\\r" else
  if c = '\u0008' then "\\b" else
  if c = '\u000C' then "\\f" else
  if 0x20 ≤ c.toNat && c.toNat ≤ 0x7E then String.mk [c] else
  if c.toNat ≤ 0xFFFF then "\\u" ++ hex4 c.toNat else
  "\\u" ++ hex4 (0xD800 + (c.toNat - 0x10000) / 0x400) ++
    "\\u" ++ hex4 (0xDC00 + (c.toNat - 0x10000) % 0x400)

/-- JSON string literal with escaping. -/
def jsonStr (s : String) : String :=
  "\"" ++ String.join (s.data.map jsonEscChar) ++ "\""

/-- Rendering of a dict key: JSON object keys are strings, and an int key
is converted to its decimal string. -/
def jsonKey : PyKey → String
  | .str s => jsonStr s
  | .int n => jsonStr (toString n)

/-- Whether a key is a string key. -/
def isStrKey : PyKey → Bool
  | .str _ => true
  | .int _ => false

/-- A key list mixing string and int keys: Python raises TypeError when
`sorted` compares them. -/
def mixedKeys (keys : List PyKey) : Bool :=
  keys.any isStrKey && keys.any (fun k => !isStrKey k)

/-- Lexicographic less-or-equal on code points, Python's ordering of
strings. -/
def charListLE : List Char → List Char → Bool
  | [], _ => true
  | _ :: _, [] => false
  | a :: as, b :: bs =>
    if a.toNat < b.toNat then true
    else if b.toNat < a.toNat then false
    else charListLE as bs

/-- Python string less-or-equal. -/
def strLE (a b : String) : Bool := charListLE a.data b.data

/-- Ordering used when dict keys are sorted: Python string comparison is
lexicographic on code points, int comparison is numeric.  Comparing an int
key with a str key raises TypeError in Python; `dumpJ` rejects mixed-type
key lists before any comparison, so the two cross-type cases are never
consulted (they are fixed arbitrarily to keep the function total). -/
def keyLE : PyKey → PyKey → Bool
  | .str a, .str b => strLE a b
  | .int a, .int b => a ≤ b
  | .int _, .str _ => true
  | .str _, .int _ => false

/-- Insertion into a key-sorted list of rendered entries. -/
def insSorted (x : PyKey × String) : List (PyKey × String) → List (PyKey × String)
  | [] => [x]
  | y :: ys => if keyLE x.1 y.1 then x :: y :: ys else y :: insSorted x ys

/-- Sorting rendered dict entries by key (the sort performed by
`json.dumps` with sorted keys). -/
def sortByKey : List (PyKey × String) → List (PyKey × String)
  | [] => []
  | x :: xs => insSorted x (sortByKey xs)

/-- Join with a separator (the default item separator of `json.dumps` is
comma-space, the key separator colon-space). -/
def joinSep (sep : String) : List String → String
  | [] => ""
  | [s] => s
  | s :: rest => s ++ sep ++ joinSep sep rest

mutual

/-- `json.dumps` with sorted keys and default separators, returning `none`
exactly where Python raises: sorting a dict whose keys mix strings and
ints raises TypeError.  Entries are rendered first and then sorted by key;
each entry renders independently of its position, so this agrees with
Python's sort-then-render order. -/
def dumpJ : JVal → Option String
  | .str s => some (jsonStr s)
  | .int n => some (toString n)
  | .bool b => some (if b then "true" else "false")
  | .null => some "null"
  | .list xs => (dumpL xs).map (fun ss => "[" ++ joinSep ", " ss ++ "]")
  | .dict kvs =>
    if mixedKeys (kvs.map Prod.fst) then none
    else (dumpD kvs).map (fun ps =>
      "\x7b" ++ joinSep ", " ((sortByKey ps).map (fun p => jsonKey p.1 ++ ": " ++ p.2)) ++ "\x7d")

def dumpL : List JVal → Option (List String)
  | [] => some []
  | x :: xs =>
    match dumpJ x with
    | Option.none => Option.none
    | some s =>
      match dumpL xs with
      | Option.none => Option.none
      | some ss => some (s :: ss)

def dumpD : List (PyKey × JVal) → Option (List (PyKey × String))
  | [] => some []
  | p :: kvs =>
    match dumpJ p.2 with
    | Option.none => Option.none
    | some s =>
      match dumpD kvs with
      | Option.none => Option.none
      | some ps => some ((p.1, s) :: ps)

end

/-- `create_hash`: a list or dict is canonically serialized with
`serialize` and dumped with sorted keys, any other value is converted with
`str()`; the digest function (MD5 hex digest in the source) is the
parameter `md5`.  `none` marks the input on which Python raises. -/
def createHash (md5 : String → String) : PyVal → Option String
  | .list xs => (dumpJ (serialize (.list xs))).map md5
  | .dict kvs => (dumpJ (serialize (.dict kvs))).map md5
  | v => some (md5 (pyStr v))

/-!
Section: order lemmas for the key sort.
-/

theorem char_toNat_inj {a b : Char} (h : a.toNat = b.toNat) : a = b :=
  Char.ofNat_toNat a ▸ Char.ofNat_toNat b ▸ congrArg Char.ofNat h

theorem charListLE_total : ∀ x y, charListLE x y = true ∨ charListLE y x = true := by
  intro x
  induction x with
  | nil => intro y; exact Or.inl rfl
  | cons a as ih =>
    intro y
    cases y with
    | nil => exact Or.inr rfl
    | cons b bs =>
      simp only [charListLE]
      by_cases h1 : a.toNat < b.toNat
      · left; rw [if_pos h1]
      · by_cases h2 : b.toNat < a.toNat
        · right; rw [if_pos h2]
        · rw [if_neg h1, if_neg h2, if_neg h2, if_neg h1]
          exact ih bs

theorem charListLE_trans :
    ∀ x y z, charListLE x y = true → charListLE y z = true → charListLE x z = true := by
  intro x
  induction x with
  | nil => intro y z _ _; rfl
  | cons a as ih =>
    intro y z hxy hyz
    cases y with
    | nil => simp [charListLE] at hxy
    | cons b bs =>
      cases z with
      | nil => simp [charListLE] at hyz
      | cons c cs =>
        simp only [charListLE] at hxy hyz ⊢
        by_cases hab : a.toNat < b.toNat
        · by_cases hbc : b.toNat < c.toNat
          · rw [if_pos (by omega : a.toNat < c.toNat)]
          · by_cases hcb : c.toNat < b.toNat
            · rw [if_neg hbc, if_pos hcb] at hyz
              exact absurd hyz (by simp)
            · rw [if_pos (by omega : a.toNat < c.toNat)]
        · by_cases hba : b.toNat < a.toNat
          · rw [if_neg hab, if_pos hba] at hxy
            exact absurd hxy (by simp)
          · by_cases hbc : b.toNat < c.toNat
            · rw [if_pos (by omega : a.toNat < c.toNat)]
            · by_cases hcb : c.toNat < b.toNat
              · rw [if_neg hbc, if_pos hcb] at hyz
                exact absurd hyz (by simp)
              · rw [if_neg (by omega : ¬ a.toNat < c.toNat),
                  if_neg (by omega : ¬ c.toNat < a.toNat)]
                rw [if_neg hab, if_neg hba] at hxy
                rw [if_neg hbc, if_neg hcb] at hyz
                exact ih bs cs hxy hyz

theorem charListLE_antisymm :
    ∀ x y, charListLE x y = true → charListLE y x = true → x = y := by
  intro x
  induction x with
  | nil =>
    intro y _ hyx
    cases y with
    | nil => rfl
    | cons b bs => simp [charListLE] at hyx
  | cons a as ih =>
    intro y hxy hyx
    cases y with
    | nil => simp [charListLE] at hxy
    | cons b bs =>
      simp only [charListLE] at hxy hyx
      by_cases hab : a.toNat < b.toNat
      · rw [if_neg (by omega : ¬ b.toNat < a.toNat), if_pos hab] at hyx
        exact absurd hyx (by simp)
      · by_cases hba : b.toNat < a.toNat
        · rw [if_neg hab, if_pos hba] at hxy
          exact absurd hxy (by simp)
        · rw [if_neg hab, if_neg hba] at hxy
          rw [if_neg hba, if_neg hab] at hyx
          have hch : a = b := char_toNat_inj (by omega)
          rw [hch, ih bs hxy hyx]

theorem keyLE_total : ∀ a b, keyLE a b = true ∨ keyLE b a = true := by
  intro a b
  cases a with
  | str s1 =>
    cases b with
    | str s2 => exact charListLE_total s1.data s2.data
    | int n2 => exact Or.inr rfl
  | int n1 =>
    cases b with
    | str s2 => exact Or.inl rfl
    | int n2 =>
      simp only [keyLE, decide_eq_true_eq]
      exact Int.le_total n1 n2

theorem keyLE_trans : ∀ a b c, keyLE a b = true → keyLE b c = true → keyLE a c = true := by
  intro a b c hab hbc
  cases a <;> cases b <;> cases c <;> simp only [keyLE, decide_eq_true_eq] at hab hbc ⊢
  case str.str.str => exact charListLE_trans _ _ _ hab hbc
  case str.str.int => simp at hbc
  case str.int.str => simp at hab
  case str.int.int => simp at hab
  case int.str.int => simp at hbc
  case int.int.int => omega

theorem keyLE_antisymm : ∀ a b, keyLE a b = true → keyLE b a = true → a = b := by
  intro a b hab hba
  cases a <;> cases b <;> simp only [keyLE, decide_eq_true_eq] at hab hba ⊢
  case str.str s1 s2 =>
    have hd : s1.data = s2.data := charListLE_antisymm _ _ hab hba
    have hs : s1 = s2 := by
      cases s1
      cases s2
      exact congrArg String.mk hd
    rw [hs]
  case str.int => simp at hab
  case int.str => simp at hba
  case int.int n1 n2 =>
    have : n1 = n2 := by omega
    rw [this]

/-- Entries pairwise sorted by key with respect to `keyLE`. -/
def KeySorted (l : List (PyKey × String)) : Prop :=
  List.Pairwise (fun p q => keyLE p.1 q.1 = true) l

theorem insSorted_perm (x : PyKey × String) :
    ∀ ys, (insSorted x ys).Perm (x :: ys) := by
  intro ys
  induction ys with
  | nil => exact List.Perm.refl _
  | cons y ys ih =>
    simp only [insSorted]
    split
    · exact List.Perm.refl _
    · exact (ih.cons y).trans (List.Perm.swap x y ys)

theorem insSorted_sorted (x : PyKey × String) :
    ∀ {ys}, KeySorted ys → KeySorted (insSorted x ys) := by
  intro ys
  induction ys with
  | nil => intro _; exact List.pairwise_singleton _ _
  | cons y ys ih =>
    intro hs
    obtain ⟨hy, hs'⟩ := List.pairwise_cons.mp hs
    simp only [insSorted]
    split
    · next hxy =>
        refine List.Pairwise.cons ?_ hs
        intro q hq
        rcases List.mem_cons.mp hq with rfl | hq
        · exact hxy
        · exact keyLE_trans _ _ _ hxy (hy q hq)
    · next hxy =>
        have hyx : keyLE y.1 x.1 = true := by
          rcases keyLE_total x.1 y.1 with h | h
          · exact absurd h hxy
          · exact h
        refine List.Pairwise.cons ?_ (ih hs')
        intro q hq
        have hq2 : q = x ∨ q ∈ ys := List.mem_cons.mp ((insSorted_perm x ys).mem_iff.mp hq)
        rcases hq2 with rfl | hq2
        · exact hyx
        · exact hy q hq2

theorem sortByKey_perm : ∀ l, (sortByKey l).Perm l := by
  intro l
  induction l with
  | nil => exact List.Perm.refl _
  | cons x xs ih =>
    simp only [sortByKey]
    exact (insSorted_perm x (sortByKey xs)).trans (ih.cons x)

theorem sortByKey_sorted : ∀ l, KeySorted (sortByKey l) := by
  intro l
  induction l with
  | nil => exact List.Pairwise.nil
  | cons x xs ih => exact insSorted_sorted x ih

theorem eq_of_perm_of_keySorted :
    ∀ {l₁ l₂ : List (PyKey × String)}, l₁.Perm l₂ → KeySorted l₁ → KeySorted l₂ →
      (l₁.map Prod.fst).Nodup → l₁ = l₂ := by
  intro l₁
  induction l₁ with
  | nil =>
    intro l₂ hp _ _ _
    exact (List.Perm.nil_eq hp)
  | cons x t₁ ih =>
    intro l₂ hp hs₁ hs₂ hnd
    cases l₂ with
    | nil =>
      have := hp.length_eq
      simp at this
    | cons y t₂ =>
      have hxy : x = y := by
        by_contra hne
        have hxmem : x ∈ y :: t₂ := hp.mem_iff.mp (List.mem_cons_self _ _)
        have hymem : y ∈ x :: t₁ := hp.mem_iff.mpr (List.mem_cons_self _ _)
        have hx2 : x ∈ t₂ := by
          rcases List.mem_cons.mp hxmem with h | h
          · exact absurd h hne
          · exact h
        have hy2 : y ∈ t₁ := by
          rcases List.mem_cons.mp hymem with h | h
          · exact absurd h.symm hne
          · exact h
        have h1 : keyLE x.1 y.1 = true := (List.pairwise_cons.mp hs₁).1 y hy2
        have h2 : keyLE y.1 x.1 = true := (List.pairwise_cons.mp hs₂).1 x hx2
        have hkey : x.1 = y.1 := keyLE_antisymm _ _ h1 h2
        have hmemmap : x.1 ∈ t₁.map Prod.fst := by
          rw [hkey]
          exact List.mem_map_of_mem _ hy2
        rw [List.map_cons] at hnd
        exact (List.nodup_cons.mp hnd).1 hmemmap
      subst hxy
      rw [List.map_cons] at hnd
      rw [ih hp.cons_inv (List.pairwise_cons.mp hs₁).2 (List.pairwise_cons.mp hs₂).2
        (List.nodup_cons.mp hnd).2]

theorem sortByKey_congr {l₁ l₂ : List (PyKey × String)}
    (hp : l₁.Perm l₂) (hnd : (l₁.map Prod.fst).Nodup) : sortByKey l₁ = sortByKey l₂ := by
  have hperm : (sortByKey l₁).Perm (sortByKey l₂) :=
    (sortByKey_perm l₁).trans (hp.trans (sortByKey_perm l₂).symm)
  have hndsort : ((sortByKey l₁).map Prod.fst).Nodup :=
    (((sortByKey_perm l₁).map Prod.fst).nodup_iff).mpr hnd
  exact eq_of_perm_of_keySorted hperm (sortByKey_sorted l₁) (sortByKey_sorted l₂) hndsort

/-!
Section: structural equality of Python values and hash congruence.
-/

mutual

/-- Structural equality of Python values in the sense of claim C1: equal
scalars; an enum member identified with any member of equal primitive tag
and, when the tag is a string, with that string itself; lists compared
pointwise; dicts compared as key-value collections: the entries of the
first dict match pairwise (same key, equivalent value) with some list that
is a permutation of the second dict's entries.  The keys of a Python dict
are distinct, which the dict case records. -/
inductive HashEquiv : PyVal → PyVal → Prop
  | str (s : String) : HashEquiv (.str s) (.str s)
  | int (n : Int) : HashEquiv (.int n) (.int n)
  | bool (b : Bool) : HashEquiv (.bool b) (.bool b)
  | none : HashEquiv .none .none
  | enum (r r' : String) (t : PyKey) : HashEquiv (.enumV r t) (.enumV r' t)
  | enumStrL (r s : String) : HashEquiv (.enumV r (.str s)) (.str s)
  | enumStrR (r s : String) : HashEquiv (.str s) (.enumV r (.str s))
  | list {xs ys : List PyVal} :
      HashEquivL xs ys → HashEquiv (.list xs) (.list ys)
  | dict {kvs₁ l kvs₂ : List (PyKey × PyVal)} :
      (kvs₁.map Prod.fst).Nodup →
      HashEquivD kvs₁ l →
      l.Perm kvs₂ →
      HashEquiv (.dict kvs₁) (.dict kvs₂)

/-- Pointwise `HashEquiv` on lists. -/
inductive HashEquivL : List PyVal → List PyVal → Prop
  | nil : HashEquivL [] []
  | cons {x y : PyVal} {xs ys : List PyVal} :
      HashEquiv x y → HashEquivL xs ys → HashEquivL (x :: xs) (y :: ys)

/-- Pointwise entry equivalence on dict entry lists: same key, equivalent
value. -/
inductive HashEquivD : List (PyKey × PyVal) → List (PyKey × PyVal) → Prop
  | nil : HashEquivD [] []
  | cons (k : PyKey) {v w : PyVal} {ps qs : List (PyKey × PyVal)} :
      HashEquiv v w → HashEquivD ps qs → HashEquivD ((k, v) :: ps) ((k, w) :: qs)

end

mutual

/-- Size measure for the strong induction over `PyVal`. -/
def psize : PyVal → Nat
  | .str _ => 1
  | .int _ => 1
  | .bool _ => 1
  | .none => 1
  | .enumV _ _ => 1
  | .list xs => psizeL xs + 1
  | .dict kvs => psizeD kvs + 1

def psizeL : List PyVal → Nat
  | [] => 0
  | x :: xs => psize x + psizeL xs + 1

def psizeD : List (PyKey × PyVal) → Nat
  | [] => 0
  | (_, v) :: kvs => psize v + psizeD kvs + 1

end

theorem serializeL_eq_map : ∀ xs, serializeL xs = xs.map serialize := by
  intro xs
  induction xs with
  | nil => rfl
  | cons x t ih => simp [serializeL, ih]

theorem serializeD_eq_map :
    ∀ kvs, serializeD kvs = kvs.map (fun p => (p.1, serialize p.2)) := by
  intro kvs
  induction kvs with
  | nil => rfl
  | cons p t ih => simp [serializeD, ih]

theorem serializeD_keys :
    ∀ kvs, (serializeD kvs).map Prod.fst = kvs.map Prod.fst := by
  intro kvs
  rw [serializeD_eq_map, List.map_map]
  rfl

theorem hashEquivD_fst_eq :
    ∀ {l₁ l₂ : List (PyKey × PyVal)}, HashEquivD l₁ l₂ →
      l₁.map Prod.fst = l₂.map Prod.fst := by
  intro l₁
  induction l₁ with
  | nil =>
    intro l₂ h
    cases h
    rfl
  | cons p t ih =>
    intro l₂ h
    cases h with
    | cons k hv hd => simp only [List.map_cons, ih hd]

theorem any_perm {α : Type} {l₁ l₂ : List α} (h : l₁.Perm l₂) (p : α → Bool) :
    l₁.any p = l₂.any p := by
  by_cases hb : l₁.any p = true
  · rw [hb]
    symm
    rw [List.any_eq_true] at hb ⊢
    obtain ⟨a, ha, hpa⟩ := hb
    exact ⟨a, h.mem_iff.mp ha, hpa⟩
  · have hc : ¬ l₂.any p = true := by
      intro hc
      apply hb
      rw [List.any_eq_true] at hc ⊢
      obtain ⟨a, ha, hpa⟩ := hc
      exact ⟨a, h.mem_iff.mpr ha, hpa⟩
    rw [Bool.not_eq_true] at hb hc
    rw [hb, hc]

theorem dumpD_keys :
    ∀ {kvs : List (PyKey × JVal)} {ps}, dumpD kvs = some ps →
      ps.map Prod.fst = kvs.map Prod.fst := by
  intro kvs
  induction kvs with
  | nil =>
    intro ps h
    simp only [dumpD] at h
    injection h with h
    rw [← h]
    rfl
  | cons p t ih =>
    intro ps h
    simp only [dumpD] at h
    cases h1 : dumpJ p.2 with
    | none => rw [h1] at h; cases h
    | some s =>
      rw [h1] at h
      cases h2 : dumpD t with
      | none => rw [h2] at h; cases h
      | some ps' =>
        rw [h2] at h
        injection h with h
        rw [← h]
        simp only [List.map_cons, ih h2]

theorem dumpD_perm :
    ∀ {l₁ l₂ : List (PyKey × JVal)}, l₁.Perm l₂ →
      (dumpD l₁ = Option.none ∧ dumpD l₂ = Option.none) ∨
      (∃ a b, dumpD l₁ = some a ∧ dumpD l₂ = some b ∧ a.Perm b) := by
  intro l₁ l₂ hp
  induction hp with
  | nil => exact Or.inr ⟨[], [], rfl, rfl, List.Perm.refl _⟩
  | cons x _ ih =>
    cases hx : dumpJ x.2 with
    | none =>
      left
      constructor <;> simp [dumpD, hx]
    | some s =>
      rcases ih with ⟨h1, h2⟩ | ⟨a, b, h1, h2, hab⟩
      · left
        constructor <;> simp [dumpD, hx, h1, h2]
      · right
        exact ⟨(x.1, s) :: a, (x.1, s) :: b, by simp [dumpD, hx, h1],
          by simp [dumpD, hx, h2], hab.cons _⟩
  | swap x y l =>
    cases hx : dumpJ x.2 with
    | none =>
      left
      cases hy : dumpJ y.2 with
      | none => constructor <;> simp [dumpD, hx, hy]
      | some sy => constructor <;> simp [dumpD, hx, hy]
    | some sx =>
      cases hy : dumpJ y.2 with
      | none =>
        left
        constructor <;> simp [dumpD, hx, hy]
      | some sy =>
        cases hl : dumpD l with
        | none =>
          left
          constructor <;> simp [dumpD, hx, hy, hl]
        | some ps =>
          right
          exact ⟨(y.1, sy) :: (x.1, sx) :: ps, (x.1, sx) :: (y.1, sy) :: ps,
            by simp [dumpD, hx, hy, hl], by simp [dumpD, hx, hy, hl],
            List.Perm.swap _ _ _⟩
  | trans _ _ ih₁ ih₂ =>
    rcases ih₁ with ⟨a1, a2⟩ | ⟨a, b, ha, hb, hab⟩
    · rcases ih₂ with ⟨b1, b2⟩ | ⟨c, d, hc, hd, hcd⟩
      · exact Or.inl ⟨a1, b2⟩
      · rw [a2] at hc; cases hc
    · rcases ih₂ with ⟨b1, b2⟩ | ⟨c, d, hc, hd, hcd⟩
      · rw [hb] at b1; cases b1
      · right
        rw [hb] at hc
        injection hc with hbc
        subst hbc
        exact ⟨a, d, ha, hd, hab.trans hcd⟩

/-- The canonical serialization (and hence any digest of it) is invariant
under `HashEquiv`; strong induction on the size of the value. -/
theorem dumpJ_congr_aux :
    ∀ (n : Nat) {a b : PyVal}, psize a ≤ n → HashEquiv a b →
      dumpJ (serialize a) = dumpJ (serialize b) := by
  intro n
  induction n with
  | zero =>
    intro a b hs _
    exfalso
    cases a <;> simp only [psize] at hs <;> omega
  | succ n ih =>
    intro a b hs h
    cases h with
    | str s => rfl
    | int m => rfl
    | bool c => rfl
    | none => rfl
    | enum r r' t => cases t <;> rfl
    | enumStrL r s => rfl
    | enumStrR r s => rfl
    | list hf =>
      rename_i xs ys
      have hsz : psizeL xs ≤ n := by
        simp only [psize] at hs
        omega
      suffices hdl : ∀ (zs ws : List PyVal), HashEquivL zs ws → psizeL zs ≤ n →
          dumpL (serializeL zs) = dumpL (serializeL ws) by
        simp only [serialize, dumpJ]
        rw [hdl xs ys hf hsz]
      intro zs
      induction zs with
      | nil =>
        intro ws hw _
        cases hw
        rfl
      | cons z zs' ihz =>
        intro ws hw hsz2
        cases hw with
        | cons hzw htail =>
          rename_i w ws'
          have h1 : dumpJ (serialize z) = dumpJ (serialize w) :=
            ih (by simp only [psizeL] at hsz2; omega) hzw
          have h2 := ihz _ htail (by simp only [psizeL] at hsz2; omega)
          simp only [serializeL, dumpL, h1, h2]
    | dict hnd hf hperm =>
      rename_i kvs₁ l kvs₂
      have hsz : psizeD kvs₁ ≤ n := by
        simp only [psize] at hs
        omega
      have hkeys1L : kvs₁.map Prod.fst = l.map Prod.fst := hashEquivD_fst_eq hf
      have hkeysperm : (kvs₁.map Prod.fst).Perm (kvs₂.map Prod.fst) := by
        rw [hkeys1L]
        exact hperm.map _
      have hD : ∀ (ps qs : List (PyKey × PyVal)), HashEquivD ps qs → psizeD ps ≤ n →
          dumpD (serializeD ps) = dumpD (serializeD qs) := by
        intro ps
        induction ps with
        | nil =>
          intro qs hq _
          cases hq
          rfl
        | cons p ps' ihp =>
          intro qs hq hsz2
          cases hq with
          | cons k hv hd =>
            rename_i v0 w0 qs0
            have h1 : dumpJ (serialize v0) = dumpJ (serialize w0) :=
              ih (by simp only [psizeD] at hsz2; omega) hv
            have h2 := ihp _ hd (by simp only [psizeD] at hsz2; omega)
            simp only [serializeD, dumpD, h1, h2]
      have hAB := hD kvs₁ l hf hsz
      have hperm2 : (serializeD l).Perm (serializeD kvs₂) := by
        rw [serializeD_eq_map, serializeD_eq_map]
        exact hperm.map _
      have hmix : mixedKeys ((serializeD kvs₁).map Prod.fst) =
          mixedKeys ((serializeD kvs₂).map Prod.fst) := by
        rw [serializeD_keys, serializeD_keys]
        unfold mixedKeys
        rw [any_perm hkeysperm, any_perm hkeysperm]
      simp only [serialize, dumpJ]
      by_cases hm : mixedKeys ((serializeD kvs₁).map Prod.fst) = true
      · rw [if_pos hm, if_pos (hmix ▸ hm)]
      · have hm2 : ¬ mixedKeys ((serializeD kvs₂).map Prod.fst) = true := by
          rw [← hmix]
          exact hm
        rw [if_neg hm, if_neg hm2, hAB]
        rcases dumpD_perm hperm2 with ⟨hB, hC⟩ | ⟨bs, cs, hB, hC, hbc⟩
        · rw [hB, hC]
        · rw [hB, hC]
          have hsort : sortByKey bs = sortByKey cs := by
            apply sortByKey_congr hbc
            rw [dumpD_keys hB, serializeD_keys, ← hkeys1L]
            exact hnd
          simp only [Option.map_some', hsort]

/-- C1: for two mappings that are structurally equal but differ only in key
insertion or iteration order, possibly with enum members in place of their
primitive string tag values, `create_hash` computes the same digest: the
canonical serialization (enum reduction, recursive structural
serialization, key-sorted dump) coincides, so any digest function yields
equal results. -/
theorem C1_create_hash_mapping_key_order
    (md5 : String → String) (kvs₁ kvs₂ : List (PyKey × PyVal))
    (h : HashEquiv (.dict kvs₁) (.dict kvs₂)) :
    createHash md5 (.dict kvs₁) = createHash md5 (.dict kvs₂) := by
  have hc := dumpJ_congr_aux (psize (.dict kvs₁)) (le_refl _) h
  simp only [createHash]
  rw [hc]

/-- Witness for C1: a two-entry mapping as produced by `model_dump` of a
document, with swapped key order and the enum member replaced by its tag
string on one side. -/
theorem C1_create_hash_mapping_key_order_witness :
    createHash id (.dict [(.str "source", .enumV "DocumentSource.WEB" (.str "web")),
        (.str "id", .str "doc1")]) =
      createHash id (.dict [(.str "id", .str "doc1"), (.str "source", .str "web")]) := by
  apply C1_create_hash_mapping_key_order
  exact @HashEquiv.dict
    [(.str "source", .enumV "DocumentSource.WEB" (.str "web")), (.str "id", .str "doc1")]
    [(.str "source", .str "web"), (.str "id", .str "doc1")]
    [(.str "id", .str "doc1"), (.str "source", .str "web")]
    (by decide)
    (HashEquivD.cons _ (HashEquiv.enumStrL _ _)
      (HashEquivD.cons _ (HashEquiv.str _) HashEquivD.nil))
    (List.Perm.swap _ _ _)

mutual

/-- No dict anywhere inside the value mixes string keys with int keys
(Python can sort such key sets, so `json.dumps` with sorted keys
succeeds). -/
def keysUniform : PyVal → Bool
  | .str _ => true
  | .int _ => true
  | .bool _ => true
  | .none => true
  | .enumV _ _ => true
  | .list xs => keysUniformL xs
  | .dict kvs => !mixedKeys (kvs.map Prod.fst) && keysUniformD kvs

def keysUniformL : List PyVal → Bool
  | [] => true
  | x :: xs => keysUniform x && keysUniformL xs

def keysUniformD : List (PyKey × PyVal) → Bool
  | [] => true
  | (_, v) :: kvs => keysUniform v && keysUniformD kvs

end

theorem dumpJ_isSome_aux :
    ∀ (n : Nat) {v : PyVal}, psize v ≤ n → keysUniform v = true →
      ∃ s, dumpJ (serialize v) = some s := by
  intro n
  induction n with
  | zero =>
    intro v hs _
    exfalso
    cases v <;> simp only [psize] at hs <;> omega
  | succ n ih =>
    intro v hs hu
    cases v with
    | str s => exact ⟨_, rfl⟩
    | int m => exact ⟨_, rfl⟩
    | bool b => exact ⟨_, rfl⟩
    | none => exact ⟨_, rfl⟩
    | enumV r t => cases t <;> exact ⟨_, rfl⟩
    | list xs =>
      have hsz : psizeL xs ≤ n := by
        simp only [psize] at hs
        omega
      simp only [keysUniform] at hu
      have hL : ∀ (zs : List PyVal), psizeL zs ≤ n → keysUniformL zs = true →
          ∃ ss, dumpL (serializeL zs) = some ss := by
        intro zs
        induction zs with
        | nil => intro _ _; exact ⟨[], rfl⟩
        | cons z zs' ihz =>
          intro hsz2 hu2
          rw [keysUniformL, Bool.and_eq_true] at hu2
          obtain ⟨s1, h1⟩ := ih (by simp only [psizeL] at hsz2; omega) hu2.1
          obtain ⟨ss, h2⟩ := ihz (by simp only [psizeL] at hsz2; omega) hu2.2
          refine ⟨s1 :: ss, ?_⟩
          simp only [serializeL, dumpL, h1, h2]
      obtain ⟨ss, hss⟩ := hL xs hsz hu
      refine ⟨"[" ++ joinSep ", " ss ++ "]", ?_⟩
      simp only [serialize, dumpJ, hss, Option.map_some']
    | dict kvs =>
      have hsz : psizeD kvs ≤ n := by
        simp only [psize] at hs
        omega
      simp only [keysUniform, Bool.and_eq_true] at hu
      have hD : ∀ (ps : List (PyKey × PyVal)), psizeD ps ≤ n → keysUniformD ps = true →
          ∃ qs, dumpD (serializeD ps) = some qs := by
        intro ps
        induction ps with
        | nil => intro _ _; exact ⟨[], rfl⟩
        | cons p ps' ihp =>
          intro hsz2 hu2
          rcases p with ⟨k, v⟩
          rw [keysUniformD, Bool.and_eq_true] at hu2
          obtain ⟨s1, h1⟩ := ih (by simp only [psizeD] at hsz2; omega) hu2.1
          obtain ⟨qs, h2⟩ := ihp (by simp only [psizeD] at hsz2; omega) hu2.2
          refine ⟨(k, s1) :: qs, ?_⟩
          simp only [serializeD, dumpD, h1, h2]
      obtain ⟨qs, hqs⟩ := hD kvs hsz hu.2
      have hmix : mixedKeys ((serializeD kvs).map Prod.fst) = false := by
        rw [serializeD_keys]
        have := hu.1
        rwa [Bool.not_eq_true'] at this
      refine ⟨"\x7b" ++ joinSep ", " ((sortByKey qs).map (fun p => jsonKey p.1 ++ ": " ++ p.2)) ++
        "\x7d", ?_⟩
      simp only [serialize, dumpJ, hmix, Bool.false_eq_true, if_false, hqs, Option.map_some']

/-- C2 (amended): `create_hash` returns a digest for every modelled value in
which no dict mixes string keys with int keys; for non-container input it
falls back to the `str()` form.  The original claim fails: a mapping whose
keys are mutually unsortable (an int key next to a string key) makes
`json.dumps(..., sort_keys=True)` raise TypeError, which `create_hash`
does not catch — see the counterexample theorem. -/
theorem C2_create_hash_total_on_uniform_keys
    (md5 : String → String) (v : PyVal) (h : keysUniform v = true) :
    ∃ d, createHash md5 v = some d := by
  obtain ⟨s, hs⟩ := dumpJ_isSome_aux (psize v) (le_refl _) h
  cases v with
  | list xs =>
    refine ⟨md5 s, ?_⟩
    simp only [createHash, hs, Option.map_some']
  | dict kvs =>
    refine ⟨md5 s, ?_⟩
    simp only [createHash, hs, Option.map_some']
  | str s2 => exact ⟨_, rfl⟩
  | int m => exact ⟨_, rfl⟩
  | bool b => exact ⟨_, rfl⟩
  | none => exact ⟨_, rfl⟩
  | enumV r t => exact ⟨_, rfl⟩

/-- Witness for the amended C2 at a concrete nested value. -/
theorem C2_create_hash_total_on_uniform_keys_witness :
    keysUniform (.dict [(.str "a", .list [.int 3, .str "b"])]) = true ∧
    ∃ d, createHash id (.dict [(.str "a", .list [.int 3, .str "b"])]) = some d :=
  ⟨by decide, C2_create_hash_total_on_uniform_keys id _ (by decide)⟩

/-- C2 counterexample: a mapping with an int key and a string key (mutually
unsortable in Python 3) makes `create_hash` raise TypeError from
`sorted`, modelled as `none`: it does not fall back to `str()`. -/
theorem C2_create_hash_mixed_keys_raises :
    createHash id (.dict [(.int 1, .str "x"), (.str "a", .str "y")]) = Option.none := by
  decide

/-!
Section: documents, chunks, and the processing loop
(src/common/models.py and the iteration processors).

The third-party pieces enter as parameters: `clean` is the configured
cleaning pipeline and `split` the text splitter, both fallible
(an `Except.error` models a raised exception).
-/

/-- The document source enum of src/common/models.py. -/
inductive DocumentSource : Type
  | confluence
  | pdf
  | web
  | unknown
deriving DecidableEq

/-- The string primitive value of a `DocumentSource` member. -/
def DocumentSource.value : DocumentSource → String
  | .confluence => "confluence"
  | .pdf => "pdf"
  | .web => "web"
  | .unknown => "unknown"

/-- Python `str()` of a `DocumentSource` member. -/
def DocumentSource.reprName : DocumentSource → String
  | .confluence => "DocumentSource.CONFLUENCE"
  | .pdf => "DocumentSource.PDF"
  | .web => "DocumentSource.WEB"
  | .unknown => "DocumentSource.UNKNOWN"

/-- A document: id, content, metadata mapping, source.  Metadata values
are JSON values (the pipeline caches them as JSON). -/
structure Doc : Type where
  id : String
  content : String
  metadata : List (String × JVal)
  source : DocumentSource

/-- A processed chunk (`ProcessedChunk`). -/
structure Chunk : Type where
  id : String
  content : String
  document_id : String
  metadata : List (String × JVal)

/-- Assoc-list lookup, the read of a Python dict with string keys. -/
def lookupKey (k : String) : List (String × JVal) → Option JVal
  | [] => Option.none
  | (k', v) :: rest => if k' = k then some v else lookupKey k rest

/-- Assoc-list update, the write of a Python dict with string keys:
replaces the binding in place or appends a new one (insertion order). -/
def setKey (k : String) (v : JVal) : List (String × JVal) → List (String × JVal)
  | [] => [(k, v)]
  | (k', v') :: rest => if k' = k then (k, v) :: rest else (k', v') :: setKey k v rest

/-- `dict.update` over an assoc list. -/
def mdUpdate (base : List (String × JVal)) (kvs : List (String × JVal)) :
    List (String × JVal) :=
  kvs.foldl (fun acc p => setKey p.1 p.2 acc) base

/-- The chunk assembled for segment `seg` at position `i` of a document
split into `total` segments: id is `{document_id}_chunk_{index}` and the
metadata is the document metadata updated with chunk_index, chunk_count
and the source value. -/
def mkChunk (doc : Doc) (i : Nat) (total : Nat) (seg : String) : Chunk where
  id := doc.id ++ "_chunk_" ++ toString i
  content := seg
  document_id := doc.id
  metadata := mdUpdate doc.metadata
    [("chunk_index", .int i), ("chunk_count", .int total), ("source", .str doc.source.value)]

/-- The chunk-assembly loop of iterations 1 and 4: every segment becomes a
chunk, `i` is the enumerate counter. -/
def buildChunksIter1Aux (doc : Doc) (total : Nat) : Nat → List String → List Chunk
  | _, [] => []
  | i, seg :: rest => mkChunk doc i total seg :: buildChunksIter1Aux doc total (i + 1) rest

def buildChunksIter1 (doc : Doc) (segs : List String) : List Chunk :=
  buildChunksIter1Aux doc segs.length 0 segs

/-- The chunk-assembly loop of iterations 2 and 3: a segment whose
stripped content is empty is skipped (its enumerate index is consumed all
the same), every other segment becomes a chunk with its pre-filter index
and the pre-filter segment count. -/
def buildChunksIter2Aux (doc : Doc) (total : Nat) : Nat → List String → List Chunk
  | _, [] => []
  | i, seg :: rest =>
    if String.mk (pyStrip seg.data) = "" then buildChunksIter2Aux doc total (i + 1) rest
    else mkChunk doc i total seg :: buildChunksIter2Aux doc total (i + 1) rest

def buildChunksIter2 (doc : Doc) (segs : List String) : List Chunk :=
  buildChunksIter2Aux doc segs.length 0 segs

/-- Per-document processing of iteration 1: clean, split, assemble; a
raised exception anywhere in the per-document block yields no chunks for
that document. -/
def processDocIter1 (clean : String → Except String String)
    (split : String → Except String (List String)) (doc : Doc) : List Chunk :=
  match clean doc.content with
  | .error _ => []
  | .ok cleaned =>
    match split cleaned with
    | .error _ => []
    | .ok segs => buildChunksIter1 doc segs

/-- Per-document processing with the iteration 2 and 3 empty-segment
filter. -/
def processDocIter2 (clean : String → Except String String)
    (split : String → Except String (List String)) (doc : Doc) : List Chunk :=
  match clean doc.content with
  | .error _ => []
  | .ok cleaned =>
    match split cleaned with
    | .error _ => []
    | .ok segs => buildChunksIter2 doc segs

/-- The batch loop of `process_documents`: documents in order, each inside
its own try-except, chunks appended to one list. -/
def processBatchIter1 (clean : String → Except String String)
    (split : String → Except String (List String)) : List Doc → List Chunk
  | [] => []
  | doc :: rest => processDocIter1 clean split doc ++ processBatchIter1 clean split rest

/-!
Section: the cache (save_to_cache / load_from_cache) and the cached
`process_documents`.

The cache directory is modelled as an association of filenames to parsed
JSON values: `save_to_cache` serializes a JSON-clean value to disk and
`load_from_cache` parses it back, which round-trips for the values stored
here (string-keyed objects), so the state stores the value itself.  A
missing file and an unparseable file both make `load_from_cache` return
None, modelled as a missing key.
-/

/-- Python truthiness of a JSON value (`if cached_data:`). -/
def jTruthy : JVal → Bool
  | .str s => !s.data.isEmpty
  | .int n => decide (n ≠ 0)
  | .bool b => b
  | .null => false
  | .list xs => !xs.isEmpty
  | .dict kvs => !kvs.isEmpty

/-- `ProcessedChunk.model_dump()`: the four fields as a JSON object. -/
def chunkToJson (c : Chunk) : JVal :=
  .dict [(.str "id", .str c.id), (.str "content", .str c.content),
    (.str "document_id", .str c.document_id),
    (.str "metadata", .dict (c.metadata.map (fun p => (.str p.1, p.2))))]

/-- Lookup of a string key in a JSON object. -/
def jLookup (k : String) : List (PyKey × JVal) → Option JVal
  | [] => Option.none
  | (.str k', v) :: rest => if k' = k then some v else jLookup k rest
  | (.int _, _) :: rest => jLookup k rest

/-- Reconstruction of a metadata mapping from a JSON object (pydantic
validates `metadata` as a string-keyed dict). -/
def metaOfJson : List (PyKey × JVal) → Option (List (String × JVal))
  | [] => some []
  | (.str k, v) :: rest => (metaOfJson rest).map (fun m => (k, v) :: m)
  | (.int _, _) :: _ => Option.none

/-- `ProcessedChunk(**chunk)`: the reconstruction of a chunk from its
dumped JSON object.  The four fields must be present with their types
(pydantic raises otherwise, modelled as `none`); unknown keys are ignored
(pydantic's default extra behavior). -/
def chunkOfJson : JVal → Option Chunk
  | .dict kvs =>
    match jLookup "id" kvs with
    | some (.str i) =>
      match jLookup "content" kvs with
      | some (.str c) =>
        match jLookup "document_id" kvs with
        | some (.str d) =>
          match jLookup "metadata" kvs with
          | some (.dict m) => (metaOfJson m).map (fun md => ⟨i, c, d, md⟩)
          | _ => Option.none
        | _ => Option.none
      | _ => Option.none
    | _ => Option.none
  | _ => Option.none

/-- Reconstruction of every chunk in the cached list; any failure is the
caught exception of the conversion loop. -/
def chunksOfJsonList : List JVal → Option (List Chunk)
  | [] => some []
  | x :: xs =>
    match chunkOfJson x with
    | Option.none => Option.none
    | some c => (chunksOfJsonList xs).map (fun cs => c :: cs)

/-- `cached_data["chunks"]` and the conversion loop: the payload must be an
object carrying a list under "chunks" whose members reconstruct; anything
else is the caught exception (KeyError or validation error). -/
def chunksFromPayload (payload : JVal) : Option (List Chunk) :=
  match payload with
  | .dict kvs =>
    match jLookup "chunks" kvs with
    | some (.list xs) => chunksOfJsonList xs
    | _ => Option.none
  | _ => Option.none

/-- The cache envelope written by `process_documents`:
`{"chunks": [...], "metadata": {...}}`. -/
def envelope (timestamp : String) (docCount chunkCount chunkSize chunkOverlap : Nat)
    (cacheVersion : String) (sourceInfo : List (PyKey × JVal)) (chunks : List Chunk) : JVal :=
  .dict [(.str "chunks", .list (chunks.map chunkToJson)),
    (.str "metadata", .dict [
      (.str "timestamp", .str timestamp),
      (.str "document_count", .int docCount),
      (.str "chunk_count", .int chunkCount),
      (.str "chunk_size", .int chunkSize),
      (.str "chunk_overlap", .int chunkOverlap),
      (.str "cache_version", .str cacheVersion),
      (.str "source_info", .dict sourceInfo)])]

mutual

/-- Conversion of a stored JSON value to the Python value seen by
`create_hash` when a document's `model_dump` is hashed. -/
def jvalToPyVal : JVal → PyVal
  | .str s => .str s
  | .int n => .int n
  | .bool b => .bool b
  | .null => .none
  | .list xs => .list (jvalToPyValL xs)
  | .dict kvs => .dict (jvalToPyValD kvs)

def jvalToPyValL : List JVal → List PyVal
  | [] => []
  | x :: xs => jvalToPyVal x :: jvalToPyValL xs

def jvalToPyValD : List (PyKey × JVal) → List (PyKey × PyVal)
  | [] => []
  | (k, v) :: kvs => (k, jvalToPyVal v) :: jvalToPyValD kvs

end

/-- `doc.model_dump()` in python mode: the enum member stays an enum
object (which is why `create_hash` special-cases Enum). -/
def docToPyVal (d : Doc) : PyVal :=
  .dict [(.str "id", .str d.id), (.str "content", .str d.content),
    (.str "metadata", .dict (d.metadata.map (fun p => (.str p.1, jvalToPyVal p.2)))),
    (.str "source", .enumV d.source.reprName (.str d.source.value))]

/-- The cache key
`processed_{hash}_{chunk_size}_{chunk_overlap}_{cache_version}.json`.
The empty-string fallback is taken only when `create_hash` raises, and is
irrelevant to the theorems: the key is a function of the inputs either
way. -/
def cacheKeyStr (md5 : String → String) (docs : List Doc)
    (chunkSize chunkOverlap : Nat) (cacheVersion : String) : String :=
  "processed_" ++ (createHash md5 (.list (docs.map docToPyVal))).getD "" ++ "_" ++
    toString chunkSize ++ "_" ++ toString chunkOverlap ++ "_" ++ cacheVersion ++ ".json"

/-- The fixed configuration of a `DocumentProcessor` together with the
injected third-party functions. -/
structure PDConfig : Type where
  clean : String → Except String String
  split : String → Except String (List String)
  md5 : String → String
  cacheVersion : String
  chunkSize : Nat
  chunkOverlap : Nat

/-- Result of one `process_documents` call: the returned chunks, the cache
state afterwards, and how many documents went through the
cleaning/splitting logic (0 on a cache hit). -/
structure PDResult : Type where
  chunks : List Chunk
  st : List (String × JVal)
  workCalls : Nat

/-- The processing-plus-cache-write path of `process_documents` (steps 2
to 4): clean and split every document, then persist the envelope under
the cache key when caching is enabled (the debug dump is a side effect
with no bearing on state or result). -/
def processAndCache (cfg : PDConfig) (cacheEnabled : Bool) (timestamp : String)
    (sourceInfo : List (PyKey × JVal)) (st : List (String × JVal)) (docs : List Doc) :
    PDResult :=
  let chunks := processBatchIter1 cfg.clean cfg.split docs
  let st' :=
    if cacheEnabled then
      setKey (cacheKeyStr cfg.md5 docs cfg.chunkSize cfg.chunkOverlap cfg.cacheVersion)
        (envelope timestamp docs.length chunks.length cfg.chunkSize cfg.chunkOverlap
          cfg.cacheVersion sourceInfo chunks) st
    else st
  ⟨chunks, st', docs.length⟩

/-- `process_documents` with its cache check (iteration 1 shape, shared by
all iterations): compute the key, try the cache unless disabled or
forced; a missing or unparseable cache file loads as None, a falsy
payload is not used, a payload that fails to reconstruct is logged and
recomputed; otherwise the cached chunks are returned with no cleaning or
splitting performed. -/
def processDocuments (cfg : PDConfig) (cacheEnabled forceReprocess : Bool)
    (timestamp : String) (sourceInfo : List (PyKey × JVal))
    (st : List (String × JVal)) (docs : List Doc) : PDResult :=
  if cacheEnabled && !forceReprocess then
    match lookupKey (cacheKeyStr cfg.md5 docs cfg.chunkSize cfg.chunkOverlap cfg.cacheVersion) st with
    | some payload =>
      if jTruthy payload then
        match chunksFromPayload payload with
        | some cs => ⟨cs, st, 0⟩
        | Option.none => processAndCache cfg cacheEnabled timestamp sourceInfo st docs
      else processAndCache cfg cacheEnabled timestamp sourceInfo st docs
    | Option.none => processAndCache cfg cacheEnabled timestamp sourceInfo st docs
  else processAndCache cfg cacheEnabled timestamp sourceInfo st docs

/-!
Section: claims C5, C6 and C9 about the processing loop.
-/

/-- C5: every per-document failure (a raised exception during cleaning or
splitting) is caught and skips only that document: the batch result is
the concatenation of the per-document results, a failing document
contributes no chunks, and in a 2-document batch in which the first
document's cleaning raises, the result is exactly the second document's
chunks. -/
theorem C5_per_document_failures_skipped
    (clean : String → Except String String) (split : String → Except String (List String)) :
    (∀ docs : List Doc, processBatchIter1 clean split docs =
        (docs.map (processDocIter1 clean split)).flatten) ∧
    (∀ (doc : Doc) (e : String), clean doc.content = .error e →
        processDocIter1 clean split doc = []) ∧
    (∀ (doc : Doc) (e cleaned : String), clean doc.content = .ok cleaned →
        split cleaned = .error e → processDocIter1 clean split doc = []) ∧
    (∀ (d₁ d₂ : Doc) (e : String), clean d₁.content = .error e →
        processBatchIter1 clean split [d₁, d₂] = processDocIter1 clean split d₂) := by
  refine ⟨?_, ?_, ?_, ?_⟩
  · intro docs
    induction docs with
    | nil => rfl
    | cons d rest ih => simp [processBatchIter1, ih]
  · intro doc e he
    simp [processDocIter1, he]
  · intro doc e cleaned hc hs
    simp [processDocIter1, hc, hs]
  · intro d₁ d₂ e he
    simp [processBatchIter1, processDocIter1, he]

/-- Witness for C5: the first document's cleaning raises, and the batch
returns exactly the second document's chunks. -/
theorem C5_per_document_failures_skipped_witness :
    (fun s => if s = "bad" then (Except.error "boom" : Except String String) else .ok s)
        "bad" = .error "boom" ∧
    processBatchIter1 (fun s => if s = "bad" then .error "boom" else .ok s)
        (fun s => .ok [s]) [⟨"d1", "bad", [], .web⟩, ⟨"d2", "fine", [], .web⟩] =
      processDocIter1 (fun s => if s = "bad" then .error "boom" else .ok s)
        (fun s => .ok [s]) ⟨"d2", "fine", [], .web⟩ :=
  ⟨rfl,
    (C5_per_document_failures_skipped _ _).2.2.2 ⟨"d1", "bad", [], .web⟩
      ⟨"d2", "fine", [], .web⟩ "boom" rfl⟩

/-- C6 (code bug): the iteration 1 (and, identically, iteration 4)
chunk-assembly loop has no empty-segment filter, so a whitespace-only
segment from the splitter is returned as a whitespace-only chunk; the
iteration 2 loop drops the same segment.  The spec flags the missing
filter as required behavior, so the omission is the bug. -/
theorem C6_whitespace_chunk_not_dropped_iter1 :
    (processBatchIter1 (fun s => .ok s) (fun _ => .ok [" "])
        [⟨"d1", "x", [], .web⟩]).map Chunk.content = [" "] ∧
    pyStrip " ".data = [] ∧
    processDocIter2 (fun s => .ok s) (fun _ => .ok [" "]) ⟨"d1", "x", [], .web⟩ = [] :=
  ⟨rfl, rfl, rfl⟩

theorem lookupKey_setKey_same (k : String) (v : JVal) :
    ∀ m, lookupKey k (setKey k v m) = some v := by
  intro m
  induction m with
  | nil => simp [setKey, lookupKey]
  | cons p rest ih =>
    rcases p with ⟨k', v'⟩
    simp only [setKey]
    split
    · simp [lookupKey]
    · next hne =>
        simp only [lookupKey]
        rw [if_neg hne]
        exact ih

theorem lookupKey_setKey_other {k k' : String} (hne : k' ≠ k) (v : JVal) :
    ∀ m, lookupKey k (setKey k' v m) = lookupKey k m := by
  intro m
  induction m with
  | nil => simp [setKey, lookupKey, hne]
  | cons p rest ih =>
    rcases p with ⟨k2, v2⟩
    simp only [setKey]
    split
    · next heq =>
        subst heq
        simp [lookupKey, hne]
    · simp only [lookupKey]
      split
      · rfl
      · exact ih

theorem mkChunk_meta_index (doc : Doc) (i total : Nat) (seg : String) :
    lookupKey "chunk_index" (mkChunk doc i total seg).metadata = some (.int i) := by
  show lookupKey "chunk_index"
      (setKey "source" _ (setKey "chunk_count" _ (setKey "chunk_index" _ doc.metadata))) = _
  rw [lookupKey_setKey_other (by decide), lookupKey_setKey_other (by decide),
    lookupKey_setKey_same]

theorem mkChunk_meta_count (doc : Doc) (i total : Nat) (seg : String) :
    lookupKey "chunk_count" (mkChunk doc i total seg).metadata = some (.int total) := by
  show lookupKey "chunk_count"
      (setKey "source" _ (setKey "chunk_count" _ (setKey "chunk_index" _ doc.metadata))) = _
  rw [lookupKey_setKey_other (by decide), lookupKey_setKey_same]

theorem buildChunksIter2Aux_spec (doc : Doc) (total : Nat) :
    ∀ (segs : List String) (i : Nat), ∀ c ∈ buildChunksIter2Aux doc total i segs,
      lookupKey "chunk_count" c.metadata = some (.int total) ∧
      ∃ j, i ≤ j ∧ j - i < segs.length ∧
        lookupKey "chunk_index" c.metadata = some (.int j) ∧
        segs.get? (j - i) = some c.content := by
  intro segs
  induction segs with
  | nil =>
    intro i c h
    simp [buildChunksIter2Aux] at h
  | cons seg rest ih =>
    intro i c h
    simp only [buildChunksIter2Aux] at h
    split at h
    · obtain ⟨h1, j, hj1, hj2, hj3, hj4⟩ := ih (i + 1) c h
      refine ⟨h1, j, by omega, by simp only [List.length_cons]; omega, hj3, ?_⟩
      have hji : j - i = (j - (i + 1)) + 1 := by omega
      rw [hji, List.get?_cons_succ]
      exact hj4
    · rcases List.mem_cons.mp h with rfl | h2
      · refine ⟨mkChunk_meta_count doc i total seg, i, le_refl _,
          by simp only [List.length_cons]; omega, mkChunk_meta_index doc i total seg, ?_⟩
        have : i - i = 0 := by omega
        rw [this]
        rfl
      · obtain ⟨h1, j, hj1, hj2, hj3, hj4⟩ := ih (i + 1) c h2
        refine ⟨h1, j, by omega, by simp only [List.length_cons]; omega, hj3, ?_⟩
        have hji : j - i = (j - (i + 1)) + 1 := by omega
        rw [hji, List.get?_cons_succ]
        exact hj4

theorem buildChunksIter2Aux_len_le (doc : Doc) (total : Nat) :
    ∀ (segs : List String) (i : Nat),
      (buildChunksIter2Aux doc total i segs).length ≤ segs.length := by
  intro segs
  induction segs with
  | nil => intro i; simp [buildChunksIter2Aux]
  | cons seg rest ih =>
    intro i
    simp only [buildChunksIter2Aux, List.length_cons]
    split
    · have := ih (i + 1)
      omega
    · simp only [List.length_cons]
      have := ih (i + 1)
      omega

theorem buildChunksIter2Aux_len_lt (doc : Doc) (total : Nat) :
    ∀ (segs : List String) (i : Nat), (∃ seg ∈ segs, String.mk (pyStrip seg.data) = "") →
      (buildChunksIter2Aux doc total i segs).length < segs.length := by
  intro segs
  induction segs with
  | nil =>
    intro i h
    simp at h
  | cons seg rest ih =>
    intro i h
    simp only [buildChunksIter2Aux, List.length_cons]
    split
    · have := buildChunksIter2Aux_len_le doc total rest (i + 1)
      omega
    · next hkeep =>
        obtain ⟨w, hw, hwe⟩ := h
        rcases List.mem_cons.mp hw with rfl | hw2
        · exact absurd hwe hkeep
        · simp only [List.length_cons]
          have := ih (i + 1) ⟨w, hw2, hwe⟩
          omega

/-- C9: in the iteration 2 and 3 processors, every returned chunk carries
chunk_count equal to the number of segments the splitter produced before
empty-segment filtering, and chunk_index equal to the segment's pre-filter
position (its content is the segment at that position); the number of
returned chunks never exceeds and, when some segment is whitespace-only,
is strictly below chunk_count; and the returned chunk_index values of a
document need not be contiguous, as the closing concrete instance shows. -/
theorem C9_iter2_prefilter_chunk_metadata :
    (∀ (doc : Doc) (segs : List String), ∀ c ∈ buildChunksIter2 doc segs,
        lookupKey "chunk_count" c.metadata = some (.int segs.length) ∧
        ∃ j, j < segs.length ∧ lookupKey "chunk_index" c.metadata = some (.int j) ∧
          segs.get? j = some c.content) ∧
    (∀ (doc : Doc) (segs : List String),
        (buildChunksIter2 doc segs).length ≤ segs.length) ∧
    (∀ (doc : Doc) (segs : List String),
        (∃ seg ∈ segs, String.mk (pyStrip seg.data) = "") →
        (buildChunksIter2 doc segs).length < segs.length) ∧
    (buildChunksIter2 ⟨"d", "", [], .web⟩ ["a", " ", "b"]).map
        (fun c => lookupKey "chunk_index" c.metadata) = [some (.int 0), some (.int 2)] := by
  refine ⟨?_, ?_, ?_, rfl⟩
  · intro doc segs c hc
    obtain ⟨h1, j, hj1, hj2, hj3, hj4⟩ := buildChunksIter2Aux_spec doc segs.length segs 0 c hc
    refine ⟨h1, j, ?_, hj3, ?_⟩
    · omega
    · have : j - 0 = j := by omega
      rw [this] at hj4
      exact hj4
  · intro doc segs
    exact buildChunksIter2Aux_len_le doc segs.length segs 0
  · intro doc segs h
    exact buildChunksIter2Aux_len_lt doc segs.length segs 0 h

/-- Witness for C9: on the segment list with a whitespace-only middle
segment, fewer chunks come back than chunk_count records. -/
theorem C9_iter2_prefilter_chunk_metadata_witness :
    (∃ seg ∈ ["a", " ", "b"], String.mk (pyStrip seg.data) = "") ∧
    (buildChunksIter2 ⟨"d", "", [], .web⟩ ["a", " ", "b"]).length < 3 :=
  ⟨⟨" ", by decide, rfl⟩,
    (C9_iter2_prefilter_chunk_metadata).2.2.1 ⟨"d", "", [], .web⟩ ["a", " ", "b"]
      ⟨" ", by decide, rfl⟩⟩

/-!
Section: claims C8 and C10 about the cache round trip.
-/

theorem metaOfJson_map (m : List (String × JVal)) :
    metaOfJson (m.map (fun p => (.str p.1, p.2))) = some m := by
  induction m with
  | nil => rfl
  | cons p rest ih =>
    rcases p with ⟨k, v⟩
    simp [metaOfJson, ih]

theorem chunk_roundtrip (c : Chunk) : chunkOfJson (chunkToJson c) = some c := by
  show (metaOfJson (c.metadata.map (fun p => (.str p.1, p.2)))).map
      (fun md => (⟨c.id, c.content, c.document_id, md⟩ : Chunk)) = some c
  rw [metaOfJson_map]
  rfl

theorem chunksOfJsonList_map (cs : List Chunk) :
    chunksOfJsonList (cs.map chunkToJson) = some cs := by
  induction cs with
  | nil => rfl
  | cons c rest ih =>
    simp only [List.map_cons, chunksOfJsonList, chunk_roundtrip, ih, Option.map_some']

theorem chunksFromPayload_envelope (timestamp : String)
    (docCount chunkCount chunkSize chunkOverlap : Nat) (cacheVersion : String)
    (sourceInfo : List (PyKey × JVal)) (chunks : List Chunk) :
    chunksFromPayload (envelope timestamp docCount chunkCount chunkSize chunkOverlap
      cacheVersion sourceInfo chunks) = some chunks := by
  show chunksOfJsonList (chunks.map chunkToJson) = some chunks
  exact chunksOfJsonList_map chunks

theorem jTruthy_envelope (timestamp : String)
    (docCount chunkCount chunkSize chunkOverlap : Nat) (cacheVersion : String)
    (sourceInfo : List (PyKey × JVal)) (chunks : List Chunk) :
    jTruthy (envelope timestamp docCount chunkCount chunkSize chunkOverlap
      cacheVersion sourceInfo chunks) = true := rfl

/-- Unfolding of `processDocuments` when caching is on and no reprocess is
forced. -/
theorem processDocuments_cache_on (cfg : PDConfig) (ts : String)
    (si : List (PyKey × JVal)) (st : List (String × JVal)) (docs : List Doc) :
    processDocuments cfg true false ts si st docs =
      match lookupKey (cacheKeyStr cfg.md5 docs cfg.chunkSize cfg.chunkOverlap
          cfg.cacheVersion) st with
      | some payload =>
        if jTruthy payload then
          match chunksFromPayload payload with
          | some cs => ⟨cs, st, 0⟩
          | Option.none => processAndCache cfg true ts si st docs
        else processAndCache cfg true ts si st docs
      | Option.none => processAndCache cfg true ts si st docs := rfl

/-- Unfolding of the cache branch when the lookup returned a payload. -/
theorem processDocuments_some (cfg : PDConfig) (ts : String) (si : List (PyKey × JVal))
    (st : List (String × JVal)) (docs : List Doc) (payload : JVal)
    (hl : lookupKey (cacheKeyStr cfg.md5 docs cfg.chunkSize cfg.chunkOverlap
        cfg.cacheVersion) st = some payload) :
    processDocuments cfg true false ts si st docs =
      if jTruthy payload = true then
        match chunksFromPayload payload with
        | some cs => ⟨cs, st, 0⟩
        | Option.none => processAndCache cfg true ts si st docs
      else processAndCache cfg true ts si st docs := by
  rw [processDocuments_cache_on, hl]

/-- A cache hit: a stored, truthy, reconstructable payload is returned
as-is with no cleaning or splitting performed. -/
theorem processDocuments_hit (cfg : PDConfig) (ts : String) (si : List (PyKey × JVal))
    (st : List (String × JVal)) (docs : List Doc) (payload : JVal) (cs : List Chunk)
    (hl : lookupKey (cacheKeyStr cfg.md5 docs cfg.chunkSize cfg.chunkOverlap
        cfg.cacheVersion) st = some payload)
    (ht : jTruthy payload = true) (hcp : chunksFromPayload payload = some cs) :
    processDocuments cfg true false ts si st docs = ⟨cs, st, 0⟩ := by
  rw [processDocuments_some cfg ts si st docs payload hl, if_pos ht, hcp]

/-- After a computing call wrote the cache, a second identical call is a
cache hit returning the same chunks with no cleaning or splitting. -/
theorem processDocuments_after_compute (cfg : PDConfig) (ts ts2 : String)
    (si si2 : List (PyKey × JVal)) (st : List (String × JVal)) (docs : List Doc) :
    (processDocuments cfg true false ts2 si2
        (processAndCache cfg true ts si st docs).st docs).chunks =
      (processAndCache cfg true ts si st docs).chunks ∧
    (processDocuments cfg true false ts2 si2
        (processAndCache cfg true ts si st docs).st docs).workCalls = 0 := by
  have hl : lookupKey (cacheKeyStr cfg.md5 docs cfg.chunkSize cfg.chunkOverlap
      cfg.cacheVersion) (processAndCache cfg true ts si st docs).st =
      some (envelope ts docs.length (processBatchIter1 cfg.clean cfg.split docs).length
        cfg.chunkSize cfg.chunkOverlap cfg.cacheVersion si
        (processBatchIter1 cfg.clean cfg.split docs)) := by
    show lookupKey (cacheKeyStr cfg.md5 docs cfg.chunkSize cfg.chunkOverlap cfg.cacheVersion)
        (setKey (cacheKeyStr cfg.md5 docs cfg.chunkSize cfg.chunkOverlap cfg.cacheVersion)
          (envelope ts docs.length (processBatchIter1 cfg.clean cfg.split docs).length
            cfg.chunkSize cfg.chunkOverlap cfg.cacheVersion si
            (processBatchIter1 cfg.clean cfg.split docs)) st) = _
    exact lookupKey_setKey_same _ _ _
  have h := processDocuments_hit cfg ts2 si2 (processAndCache cfg true ts si st docs).st docs
    (envelope ts docs.length (processBatchIter1 cfg.clean cfg.split docs).length
      cfg.chunkSize cfg.chunkOverlap cfg.cacheVersion si
      (processBatchIter1 cfg.clean cfg.split docs))
    (processBatchIter1 cfg.clean cfg.split docs) hl
    (jTruthy_envelope ts docs.length (processBatchIter1 cfg.clean cfg.split docs).length
      cfg.chunkSize cfg.chunkOverlap cfg.cacheVersion si
      (processBatchIter1 cfg.clean cfg.split docs))
    (chunksFromPayload_envelope ts docs.length
      (processBatchIter1 cfg.clean cfg.split docs).length cfg.chunkSize cfg.chunkOverlap
      cfg.cacheVersion si (processBatchIter1 cfg.clean cfg.split docs))
  rw [h]
  exact ⟨rfl, rfl⟩

/-- C8: with caching enabled and no forced reprocess, calling
`process_documents` twice with the identical document list and parameters
makes the second call a cache hit: it performs no cleaning or splitting
and returns a chunk list equal (ids, contents, document ids, metadata) to
the first call's. -/
theorem C8_second_call_is_cache_hit (cfg : PDConfig) (ts1 ts2 : String)
    (si1 si2 : List (PyKey × JVal)) (st : List (String × JVal)) (docs : List Doc) :
    (processDocuments cfg true false ts2 si2
        (processDocuments cfg true false ts1 si1 st docs).st docs).chunks =
      (processDocuments cfg true false ts1 si1 st docs).chunks ∧
    (processDocuments cfg true false ts2 si2
        (processDocuments cfg true false ts1 si1 st docs).st docs).workCalls = 0 := by
  cases hl : lookupKey (cacheKeyStr cfg.md5 docs cfg.chunkSize cfg.chunkOverlap
      cfg.cacheVersion) st with
  | none =>
    have hmiss : processDocuments cfg true false ts1 si1 st docs =
        processAndCache cfg true ts1 si1 st docs := by
      rw [processDocuments_cache_on, hl]
    rw [hmiss]
    exact processDocuments_after_compute cfg ts1 ts2 si1 si2 st docs
  | some payload =>
    rw [processDocuments_some cfg ts1 si1 st docs payload hl]
    by_cases ht : jTruthy payload = true
    · rw [if_pos ht]
      cases hcp : chunksFromPayload payload with
      | none =>
        have hred : (match (Option.none : Option (List Chunk)) with
            | some cs => ({ chunks := cs, st := st, workCalls := 0 } : PDResult)
            | Option.none => processAndCache cfg true ts1 si1 st docs) =
            processAndCache cfg true ts1 si1 st docs := rfl
        rw [hred]
        exact processDocuments_after_compute cfg ts1 ts2 si1 si2 st docs
      | some cs =>
        have hred : (match (some cs : Option (List Chunk)) with
            | some cs => ({ chunks := cs, st := st, workCalls := 0 } : PDResult)
            | Option.none => processAndCache cfg true ts1 si1 st docs) =
            ({ chunks := cs, st := st, workCalls := 0 } : PDResult) := rfl
        rw [hred]
        have hsecond := processDocuments_hit cfg ts2 si2 st docs payload cs hl ht hcp
        show (processDocuments cfg true false ts2 si2 st docs).chunks = cs ∧
          (processDocuments cfg true false ts2 si2 st docs).workCalls = 0
        rw [hsecond]
        exact ⟨rfl, rfl⟩
    · rw [if_neg ht]
      exact processDocuments_after_compute cfg ts1 ts2 si1 si2 st docs

/-- C10 (amended): a missing, falsy, or unreconstructable cache entry
always leads to recomputation; but a payload that reconstructs is served
as-is, and since the stored envelope is a non-empty dict (hence truthy)
even when its chunk list is empty, a cached zero-chunk result is served
from cache, not recomputed. -/
theorem C10_cache_read_paths (cfg : PDConfig) (ts : String)
    (si : List (PyKey × JVal)) (st : List (String × JVal)) (docs : List Doc) :
    (lookupKey (cacheKeyStr cfg.md5 docs cfg.chunkSize cfg.chunkOverlap cfg.cacheVersion) st =
        Option.none →
      processDocuments cfg true false ts si st docs = processAndCache cfg true ts si st docs) ∧
    (∀ payload,
      lookupKey (cacheKeyStr cfg.md5 docs cfg.chunkSize cfg.chunkOverlap cfg.cacheVersion) st =
        some payload → jTruthy payload = false →
      processDocuments cfg true false ts si st docs = processAndCache cfg true ts si st docs) ∧
    (∀ payload,
      lookupKey (cacheKeyStr cfg.md5 docs cfg.chunkSize cfg.chunkOverlap cfg.cacheVersion) st =
        some payload → jTruthy payload = true → chunksFromPayload payload = Option.none →
      processDocuments cfg true false ts si st docs = processAndCache cfg true ts si st docs) ∧
    (∀ payload cs,
      lookupKey (cacheKeyStr cfg.md5 docs cfg.chunkSize cfg.chunkOverlap cfg.cacheVersion) st =
        some payload → jTruthy payload = true → chunksFromPayload payload = some cs →
      processDocuments cfg true false ts si st docs = ⟨cs, st, 0⟩) := by
  refine ⟨?_, ?_, ?_, ?_⟩
  · intro hl
    rw [processDocuments_cache_on, hl]
  · intro payload hl ht
    rw [processDocuments_some cfg ts si st docs payload hl, if_neg (by rw [ht]; simp)]
  · intro payload hl ht hcp
    rw [processDocuments_some cfg ts si st docs payload hl, if_pos ht, hcp]
  · intro payload cs hl ht hcp
    exact processDocuments_hit cfg ts si st docs payload cs hl ht hcp

/-- Configuration whose splitter produces no segments: a processing run
with it yields zero chunks. -/
def emptySplitCfg : PDConfig where
  clean := fun s => .ok s
  split := fun _ => .ok []
  md5 := id
  cacheVersion := "v1"
  chunkSize := 500
  chunkOverlap := 50

/-- Witness for the amended C10 at a concrete state: an absent entry makes
the call recompute. -/
theorem C10_cache_read_paths_witness :
    processDocuments emptySplitCfg true false "t" [] [] [⟨"d1", "x", [], .web⟩] =
      processAndCache emptySplitCfg true "t" [] [] [⟨"d1", "x", [], .web⟩] :=
  (C10_cache_read_paths emptySplitCfg "t" [] [] [⟨"d1", "x", [], .web⟩]).1 rfl

/-- C10 counterexample: a run that produced zero chunks writes a truthy
envelope, so the next identical call is served the empty chunk list from
cache (work count 0) instead of recomputing. -/
theorem C10_zero_chunk_payload_served :
    (processDocuments emptySplitCfg true false "t1" [] [] [⟨"d1", "x", [], .web⟩]).chunks = [] ∧
    (processDocuments emptySplitCfg true false "t2" []
        (processDocuments emptySplitCfg true false "t1" [] [] [⟨"d1", "x", [], .web⟩]).st
        [⟨"d1", "x", [], .web⟩]).workCalls = 0 ∧
    (processDocuments emptySplitCfg true false "t2" []
        (processDocuments emptySplitCfg true false "t1" [] [] [⟨"d1", "x", [], .web⟩]).st
        [⟨"d1", "x", [], .web⟩]).chunks = [] := by
  refine ⟨rfl, ?_, ?_⟩
  · have h := processDocuments_after_compute emptySplitCfg "t1" "t2" [] [] []
      [⟨"d1", "x", [], .web⟩]
    exact h.2
  · have h := processDocuments_after_compute emptySplitCfg "t1" "t2" [] [] []
      [⟨"d1", "x", [], .web⟩]
    exact h.1

/-!
Section: the layout-repair dot-leader pass (claim C7).

`clean_dot_leader_lines` (iteration 4) works line by line with three
regexes.  The embedding uses a small backtracking matcher with Python's
semantics: alternation tries its left branch first, greedy repetition
consumes as much as possible before yielding, lazy repetition as little,
and a capture group records the last text its body consumed.  The fuel
bounds the recursion depth and is chosen far above what the concrete
evaluations need.
-/

/-- Regular-expression syntax sufficient for the three patterns of the
pass: character classes, concatenation, alternation, greedy and lazy
counted repetition, capture groups. -/
inductive RE : Type
  | cls (p : Char → Bool)
  | seq (a b : RE)
  | alt (a b : RE)
  | repG (lo : Nat) (hi : Option Nat) (a : RE)
  | repL (lo : Nat) (hi : Option Nat) (a : RE)
  | grp (i : Nat) (a : RE)

/-- Record a capture group's text. -/
def setGrp (i : Nat) (v : List Char) : List (Nat × List Char) → List (Nat × List Char)
  | [] => [(i, v)]
  | (j, w) :: rest => if j = i then (i, v) :: rest else (j, w) :: setGrp i v rest

/-- Read a capture group's text. -/
def getGrp : List (Nat × List Char) → Nat → List Char
  | [], _ => []
  | (j, v) :: rest, i => if j = i then v else getGrp rest i

/-- Backtracking matcher in continuation-passing style.  `k` receives the
remaining input and the captures; `none` is a failed branch, triggering
backtracking in the caller. -/
def mtch : Nat → RE → List Char → List (Nat × List Char) →
    (List Char → List (Nat × List Char) → Option (List (Nat × List Char))) →
    Option (List (Nat × List Char))
  | 0, _, _, _, _ => Option.none
  | fuel + 1, re, s, env, k =>
    match re with
    | .cls p =>
      match s with
      | [] => Option.none
      | c :: rest => if p c then k rest env else Option.none
    | .seq a b => mtch fuel a s env (fun s' env' => mtch fuel b s' env' k)
    | .alt a b =>
      match mtch fuel a s env k with
      | some r => some r
      | Option.none => mtch fuel b s env k
    | .grp i a =>
      mtch fuel a s env
        (fun s' env' => k s' (setGrp i (s.take (s.length - s'.length)) env'))
    | .repG lo hi a =>
      if 0 < lo then
        mtch fuel a s env
          (fun s' env' => mtch fuel (.repG (lo - 1) (hi.map (fun h => h - 1)) a) s' env' k)
      else
        match hi with
        | some 0 => k s env
        | _ =>
          match
            mtch fuel a s env
              (fun s' env' => mtch fuel (.repG 0 (hi.map (fun h => h - 1)) a) s' env' k)
          with
          | some r => some r
          | Option.none => k s env
    | .repL lo hi a =>
      if 0 < lo then
        mtch fuel a s env
          (fun s' env' => mtch fuel (.repL (lo - 1) (hi.map (fun h => h - 1)) a) s' env' k)
      else
        match hi with
        | some 0 => k s env
        | _ =>
          match k s env with
          | some r => some r
          | Option.none =>
            mtch fuel a s env
              (fun s' env' => mtch fuel (.repL 0 (hi.map (fun h => h - 1)) a) s' env' k)

/-- Anchored match of the whole input (the three patterns are anchored:
two are used with `fullmatch`, and the dot-leader pattern starts with the
caret of `re.match` and ends with a dollar). -/
def reFullMatch (re : RE) (s : List Char) : Option (List (Nat × List Char)) :=
  mtch (40 * s.length + 200) re s []
    (fun s' env => if s'.isEmpty then some env else Option.none)

/-- The class for dot, matching the regex dot on split lines (which
contain no newline). -/
def anyCh (c : Char) : Bool := !(c = '\n')

/-- The class of whitespace-or-period. -/
def wsdotC (c : Char) : Bool := pyWS c || c = '.'

/-- The value characters of the allocation pattern: digits, comma,
period, apostrophe, space, hyphen. -/
def allocCh (c : Char) : Bool :=
  isDigit09 c || c = ',' || c = '.' || c = '\'' || c = ' ' || c = '-'

/-- RE_DOT_LEADER: lazy label (group 1), whitespace, a run of at least
five whitespace-or-period pairs each ending in a period or at least five
whitespace-or-period characters (group 2), whitespace, then the value
part (group 3) up to the end of the line. -/
def reDotLeader : RE :=
  .seq (.grp 1 (.repL 0 Option.none (.cls anyCh)))
    (.seq (.repG 0 Option.none (.cls pyWS))
      (.seq (.grp 2 (.alt
          (.repG 5 Option.none (.seq (.cls wsdotC) (.cls (fun c => c = '.'))))
          (.repG 5 Option.none (.cls wsdotC))))
        (.seq (.repG 0 Option.none (.cls pyWS))
          (.grp 3 (.repG 1 Option.none (.cls anyCh))))))

/-- RE_TOC_SIMPLE: optional whitespace, digits, optional whitespace. -/
def reTocSimple : RE :=
  .seq (.repG 0 Option.none (.cls pyWS))
    (.seq (.repG 1 Option.none (.cls isDigit09)) (.repG 0 Option.none (.cls pyWS)))

/-- RE_ALLOCATION_VALUE: optional whitespace, optional open paren,
optional currency symbol, optional single whitespace, a lazy non-empty
run of value characters, optional single whitespace, optional close
paren, optional percent sign, optional whitespace. -/
def reAllocValue : RE :=
  .seq (.repG 0 Option.none (.cls pyWS))
    (.seq (.repG 0 (some 1) (.cls (fun c => c = '(')))
      (.seq (.repG 0 (some 1) (.cls (fun c => c = '$' || c = '€' || c = '£')))
        (.seq (.repG 0 (some 1) (.cls pyWS))
          (.seq (.repL 1 Option.none (.cls allocCh))
            (.seq (.repG 0 (some 1) (.cls pyWS))
              (.seq (.repG 0 (some 1) (.cls (fun c => c = ')')))
                (.seq (.repG 0 (some 1) (.cls (fun c => c = '%')))
                  (.repG 0 Option.none (.cls pyWS)))))))))

/-- One line of `clean_dot_leader_lines`, parameterized over the three
module-level configuration flags (REMOVE_TOC_LINES,
REFORMAT_ALLOCATION_LINES, HANDLE_COMPLEX_DOT_LEADER_LINES): `none` means
the line is dropped from the output. -/
def processLine (removeToc reformatAlloc : Bool) (policy : String) (line : String) :
    Option String :=
  match reFullMatch reDotLeader line.data with
  | Option.none => some line
  | some env =>
    let label := String.mk (pyStrip (getGrp env 1))
    let valuePart := String.mk (pyStrip (getGrp env 3))
    if label = "" then some line
    else if removeToc && (reFullMatch reTocSimple valuePart.data).isSome then Option.none
    else if reformatAlloc && (reFullMatch reAllocValue valuePart.data).isSome &&
        decide (valuePart.length < 25) then
      some (label ++ " " ++ String.mk (pyStrip (collapseWS valuePart.data)))
    else if policy = "reformat" then
      some (label ++ " " ++ String.mk (pyStrip (collapseWS valuePart.data)))
    else if policy = "remove" then Option.none
    else some line

/-- The line-boundary characters of Python `str.splitlines`. -/
def lineBreakCh (c : Char) : Bool :=
  c = '\n' || c = '\r' || c = '\u000B' || c = '\u000C' ||
  c = '\u001C' || c = '\u001D' || c = '\u001E' || c = '\u0085' ||
  c = ' ' || c = ' '

/-- `str.splitlines`: split at line boundaries, a carriage-return-linefeed
pair counting as one boundary, with no trailing empty line.  Every step
consumes at least one character, so fuel equal to the length suffices. -/
def splitlinesAux : Nat → List Char → List (List Char)
  | _, [] => []
  | 0, cs => [cs]
  | fuel + 1, cs =>
    let line := cs.takeWhile (fun c => !lineBreakCh c)
    match cs.drop line.length with
    | [] => [line]
    | '\r' :: '\n' :: rest2 => line :: splitlinesAux fuel rest2
    | _ :: rest2 => line :: splitlinesAux fuel rest2

def splitlinesPy (s : String) : List String :=
  (splitlinesAux s.data.length s.data).map String.mk

/-- `clean_dot_leader_lines` of iteration 4, with the three configuration
flags as parameters (in the source they are the module constants True,
True, "reformat"): process each line, drop the lines handled by removal,
and rejoin with newlines. -/
def cleanDotLeaderLines (removeToc reformatAlloc : Bool) (policy : String)
    (text : String) : String :=
  joinSep "\n" ((splitlinesPy text).filterMap (processLine removeToc reformatAlloc policy))

/-- C7 counterexample: with the module's configured flags
(REMOVE_TOC_LINES and REFORMAT_ALLOCATION_LINES both True, as in the
source), the line "Revenue ......... 12%" is matched by the
allocation-value branch before the complex-line policy is consulted, so
with policy "remove" the output line is "Revenue 12%", not the empty
output claimed, and with policy "keep_original" it is also "Revenue 12%",
not the unchanged input. -/
theorem C7_policy_preempted_by_allocation_branch :
    cleanDotLeaderLines true true "remove" "Revenue ......... 12%" = "Revenue 12%" ∧
    ("Revenue 12%" : String) ≠ "" ∧
    cleanDotLeaderLines true true "keep_original" "Revenue ......... 12%" = "Revenue 12%" ∧
    ("Revenue 12%" : String) ≠ "Revenue ......... 12%" := by
  refine ⟨by decide, by decide, by decide, by decide⟩

/-- C7 (amended): on "Revenue ......... 12%" the value part "12%" is
allocation-shaped and shorter than 25 characters, so under the source's
configured flags the line is reformatted to "Revenue 12%" under every
policy — the complex-line policy is never consulted.  The claimed
three-way policy behavior (reformat / no output line / unchanged) holds
exactly when the allocation-reformat flag is disabled. -/
theorem C7_dot_leader_policies :
    cleanDotLeaderLines true true "reformat" "Revenue ......... 12%" = "Revenue 12%" ∧
    cleanDotLeaderLines true true "remove" "Revenue ......... 12%" = "Revenue 12%" ∧
    cleanDotLeaderLines true true "keep_original" "Revenue ......... 12%" = "Revenue 12%" ∧
    cleanDotLeaderLines true false "reformat" "Revenue ......... 12%" = "Revenue 12%" ∧
    cleanDotLeaderLines true false "remove" "Revenue ......... 12%" = "" ∧
    cleanDotLeaderLines true false "keep_original" "Revenue ......... 12%" =
      "Revenue ......... 12%" := by
  refine ⟨by decide, by decide, by decide, by decide, by decide, by decide⟩

end RagProof
